import Mathlib

/-!
# Verification of `src/linked_list.rs` (`collections` crate)

A shallow embedding of the singly-linked list `LinkedList<T>` from
`src/linked_list.rs`.  The Rust code manipulates raw pointers
(`Option<NonNull<Node<T>>>`), so the embedding models the memory explicitly:

* a pointer is a natural number (`Ptr`);
* the heap is an association list from pointers to nodes; `Box::new`
  allocates at a fresh address (tracked by the `fresh` counter of the state),
  `Box::from_raw` followed by the box being dropped removes the entry;
* the list state mirrors the Rust struct fields `head`, `tail`, `len`,
  extended with the heap and the allocation counter;
* operations that dereference or `unwrap` return `Option`: `none` models the
  panicking / faulting execution (e.g. `unwrap` of `None` inside `insert`).

Every operation below is translated statement by statement from the
corresponding Rust function, in the same order of effects.
-/

set_option autoImplicit false

namespace LinkedListRs

/-- A raw pointer (address) in the modelled heap. -/
abbrev Ptr := Nat

/-- `struct Node<T> { element: T, next: Option<NonNull<Node<T>>> }`. -/
structure Node (α : Type) where
  element : α
  next : Option Ptr
deriving Repr, DecidableEq

/-- The modelled memory: an association list from addresses to nodes. -/
abbrev Heap (α : Type) := List (Ptr × Node α)

/-- Reading the node at address `p` (`ptr::as_ref`): the first entry with
key `p`, or `none` if `p` is not allocated. -/
def Heap.lookup {α : Type} : Heap α → Ptr → Option (Node α)
  | [], _ => none
  | (q, n) :: t, p => if q = p then some n else Heap.lookup t p

/-- Writing the `next` field of the node at address `p`
(`(*p.as_ptr()).next = nx`). -/
def Heap.setNext {α : Type} (h : Heap α) (p : Ptr) (nx : Option Ptr) : Heap α :=
  h.map (fun e => if e.1 = p then (e.1, { e.2 with next := nx }) else e)

/-- Writing the `element` field of the node at address `p` (the effect of a
store through the mutable reference handed out by `front_mut`/`back_mut`). -/
def Heap.setElement {α : Type} (h : Heap α) (p : Ptr) (x : α) : Heap α :=
  h.map (fun e => if e.1 = p then (e.1, { e.2 with element := x }) else e)

/-- Deallocating the node at address `p` (dropping the `Box` obtained from
`Box::from_raw`): all entries at `p` are removed. -/
def Heap.free {α : Type} : Heap α → Ptr → Heap α
  | [], _ => []
  | (q, n) :: t, p =>
    if q = p then Heap.free t p else (q, n) :: Heap.free t p

/-- The Rust struct
`LinkedList<T> { head, tail, len, marker }`, together with the heap holding
the nodes it owns and the allocator state `fresh` (all allocated addresses
are below `fresh`, so `fresh` is never in use). -/
structure LinkedList (α : Type) where
  heap : Heap α
  head : Option Ptr
  tail : Option Ptr
  len : Nat
  fresh : Ptr
deriving Repr, DecidableEq

namespace LinkedList

variable {α : Type}

/-- `LinkedList::new`: the empty list, with an empty heap. -/
def new : LinkedList α :=
  { heap := [], head := none, tail := none, len := 0, fresh := 0 }

/-- `LinkedList::len`: returns the `len` field. -/
def length (l : LinkedList α) : Nat :=
  l.len

/-- `LinkedList::front`: the element of the node at `head`, if any.
`head` points into the heap under the list invariant, so the dereference is
modelled by a heap lookup. -/
def front (l : LinkedList α) : Option α :=
  l.head.bind (fun p => (l.heap.lookup p).map Node.element)

/-- `LinkedList::back`: the element of the node at `tail`, if any. -/
def back (l : LinkedList α) : Option α :=
  l.tail.bind (fun p => (l.heap.lookup p).map Node.element)

/-- `LinkedList::len` as a state transformer: the method takes `&self` and
only reads `self.len`, so the state component is returned unchanged. -/
def lengthRun (l : LinkedList α) : Nat × LinkedList α :=
  (l.len, l)

/-- `LinkedList::front` as a state transformer: `&self`, reads only. -/
def frontRun (l : LinkedList α) : Option α × LinkedList α :=
  (front l, l)

/-- `LinkedList::back` as a state transformer: `&self`, reads only. -/
def backRun (l : LinkedList α) : Option α × LinkedList α :=
  (back l, l)

/-- The effect of `*list.front_mut().unwrap() = x`: `front_mut` hands out
`&mut node.element` for the node at `head`, so a store through it overwrites
exactly that field.  If the list is empty (`front_mut` returns `None`),
nothing happens. -/
def frontMutWrite (l : LinkedList α) (x : α) : LinkedList α :=
  match l.head with
  | none => l
  | some p => { l with heap := l.heap.setElement p x }

/-- The effect of `*list.back_mut().unwrap() = x`, symmetric to
`frontMutWrite` at `tail`. -/
def backMutWrite (l : LinkedList α) (x : α) : LinkedList α :=
  match l.tail with
  | none => l
  | some p => { l with heap := l.heap.setElement p x }

/-- `LinkedList::push_front`:
allocates `Node { element, next: self.head }`; if `self.tail` is none, sets
`tail` to the new node; sets `head` to the new node; `len += 1`. -/
def pushFront (l : LinkedList α) (x : α) : LinkedList α :=
  let p := l.fresh
  let heap : Heap α := (p, ⟨x, l.head⟩) :: l.heap
  let tail := if l.tail.isNone then some p else l.tail
  { heap := heap, head := some p, tail := tail, len := l.len + 1,
    fresh := p + 1 }

/-- `LinkedList::push_back`:
allocates `Node { element, next: None }`; if `self.tail` is some, links the
old tail's `next` to the new node, else sets `head` to it; sets `tail` to the
new node; `len += 1`. -/
def pushBack (l : LinkedList α) (x : α) : LinkedList α :=
  let p := l.fresh
  let heap : Heap α := (p, ⟨x, none⟩) :: l.heap
  match l.tail with
  | some t =>
      { heap := heap.setNext t (some p), head := l.head, tail := some p,
        len := l.len + 1, fresh := p + 1 }
  | none =>
      { heap := heap, head := some p, tail := some p,
        len := l.len + 1, fresh := p + 1 }

/-- `LinkedList::pop_front`:
`self.head.map(|node| ...)`; inside, takes ownership of the head node
(deallocating it), advances `head` to its `next`, clears `tail` if the list
became empty, `len -= 1`, returns the element.  The outer `none` models the
faulting execution where `head` is a dangling pointer (impossible under the
invariant). -/
def popFront (l : LinkedList α) : Option (Option α × LinkedList α) :=
  match l.head with
  | none => some (none, l)
  | some p =>
    match l.heap.lookup p with
    | none => none
    | some nd =>
      let head := nd.next
      let tail := if head.isNone then none else l.tail
      some (some nd.element,
        { heap := l.heap.free p, head := head, tail := tail,
          len := l.len - 1, fresh := l.fresh })

/-- The loop inside `pop_back` locating the last node and its predecessor:
`let mut last = self.head.unwrap(); let mut penultimate = None;
while let Some(l) = last.as_ref().next { penultimate = Some(last); last = l }`.
Returns `(last, penultimate)`.  `none` models a fault (dangling pointer) or
fuel exhaustion (a chain longer than the fuel, impossible under the
invariant with fuel `len`). -/
def walkLast {α : Type} (h : Heap α) :
    Nat → Ptr → Option Ptr → Option (Ptr × Option Ptr)
  | 0, last, pen =>
    match h.lookup last with
    | none => none
    | some nd =>
      match nd.next with
      | none => some (last, pen)
      | some _ => none
  | fuel + 1, last, pen =>
    match h.lookup last with
    | none => none
    | some nd =>
      match nd.next with
      | none => some (last, pen)
      | some l => walkLast h fuel l (some last)

/-- `LinkedList::pop_back`:
`self.tail.map(|node| ...)`; inside, takes ownership of the tail node, walks
from `self.head.unwrap()` to find the penultimate node; if one exists, sets
its `next` to none and `tail` to it, otherwise clears both `head` and `tail`;
`len -= 1`; the tail box is dropped (deallocated) at the end of the closure;
returns the element.  `none` models the faulting/panicking executions
(`head.unwrap()` on `None`, dangling pointers). -/
def popBack (l : LinkedList α) : Option (Option α × LinkedList α) :=
  match l.tail with
  | none => some (none, l)
  | some t =>
    match l.heap.lookup t with
    | none => none
    | some tn =>
      match l.head with
      | none => none
      | some hd =>
        match walkLast l.heap l.len hd none with
        | none => none
        | some (_, pen) =>
          match pen with
          | some p =>
            some (some tn.element,
              { heap := (l.heap.setNext p none).free t, head := l.head,
                tail := some p, len := l.len - 1, fresh := l.fresh })
          | none =>
            some (some tn.element,
              { heap := l.heap.free t, head := none, tail := none,
                len := l.len - 1, fresh := l.fresh })

/-- The loop of `<LinkedList as Drop>::drop`:
`let mut node = self.head; while let Some(n) = node
{ node = Box::from_raw(n.as_ptr()).next }` — reads the successor, then the
box drop deallocates the node.  Returns the list of addresses deallocated,
in order, together with the heap after the loop.  The loop is iterative
(a tail call with an accumulator-free state), mirrored here by structural
recursion on the fuel; under the invariant, fuel `len` runs the loop to
completion. -/
def dropLoop {α : Type} (h : Heap α) :
    Nat → Option Ptr → List Ptr × Heap α
  | _, none => ([], h)
  | 0, some _ => ([], h)
  | fuel + 1, some p =>
    match h.lookup p with
    | none => ([], h)
    | some nd =>
      let r := dropLoop (h.free p) fuel nd.next
      (p :: r.1, r.2)

/-- `LinkedList::clear`: `*self = Self::new()` — the old value is dropped
(running the `Drop` loop over the chain), and the fields are reset to the
empty list.  The allocator state survives. -/
def clear (l : LinkedList α) : LinkedList α :=
  { heap := (dropLoop l.heap l.len l.head).2, head := none, tail := none,
    len := 0, fresh := l.fresh }

/-- The walk at the start of `insert`:
`let mut before = None; let mut after = self.head;
for _ in 0..index { before = after; after = after.unwrap().as_ref().next }`.
`none` models the panic of `unwrap` on `None` (or a dangling dereference). -/
def walkTo {α : Type} (h : Heap α) :
    Nat → Option Ptr → Option Ptr → Option (Option Ptr × Option Ptr)
  | 0, before, after => some (before, after)
  | i + 1, _, after =>
    match after with
    | none => none
    | some p =>
      match h.lookup p with
      | none => none
      | some nd => walkTo h i (some p) nd.next

/-- `LinkedList::insert`:
walks `index` steps to find `(before, after)`; allocates
`Node { element, next: after }`; rewires `before`'s `next` (or `head`, when
`before` is none) to the new node; if `after` is none, sets `tail` to the new
node; `len += 1`.  `none` is the panicking execution (`index > len`). -/
def insertAt (l : LinkedList α) (index : Nat) (x : α) :
    Option (LinkedList α) :=
  match walkTo l.heap index none l.head with
  | none => none
  | some (before, after) =>
    let p := l.fresh
    let heap : Heap α := (p, ⟨x, after⟩) :: l.heap
    let heap :=
      match before with
      | some b => heap.setNext b (some p)
      | none => heap
    let head :=
      match before with
      | some _ => l.head
      | none => some p
    let tail := if after.isNone then some p else l.tail
    some { heap := heap, head := head, tail := tail, len := l.len + 1,
           fresh := p + 1 }

/-- Iterated `push_back`: `for x in xs { list.push_back(x) }`. -/
def pushBackAll (l : LinkedList α) (xs : List α) : LinkedList α :=
  xs.foldl pushBack l

/-- Iterated `push_front`: `for x in xs { list.push_front(x) }`. -/
def pushFrontAll (l : LinkedList α) (xs : List α) : LinkedList α :=
  xs.foldl pushFront l

/-- `n` successive calls of `pop_front`, collecting the returned values.
The outer `none` propagates a faulting execution of `pop_front`. -/
def popFrontN (l : LinkedList α) :
    Nat → Option (List (Option α) × LinkedList α)
  | 0 => some ([], l)
  | n + 1 =>
    match l.popFront with
    | none => none
    | some (r, l') =>
      (popFrontN l' n).map (fun w => (r :: w.1, w.2))

end LinkedList

/-!
## The pointer-chain semantics and the structural invariant

`chainSeg h n p q = some cs` says: starting at pointer `p` and following the
`next` fields through the heap `h` for exactly `n` steps visits the nodes
`cs` (address/node pairs, in order) and arrives at pointer `q`.
The structural invariant of the spec — "following `next` references from
`head` exactly `len` times reaches `tail`, then none" — is
`chainSeg h len head none = some cs` with `tail` the last visited address.
-/

/-- Follow `next` from `p` for exactly `n` steps, recording the visited
nodes, requiring arrival at `q`. -/
def chainSeg {α : Type} (h : Heap α) : Nat → Option Ptr → Option Ptr →
    Option (List (Ptr × Node α))
  | 0, p, q => if p = q then some [] else none
  | n + 1, p, q =>
    p.bind (fun r => (h.lookup r).bind (fun nd =>
      (chainSeg h n nd.next q).map (fun cs => (r, nd) :: cs)))

/-- The full chain: `n` steps from `p` ending at none. -/
def chain {α : Type} (h : Heap α) (n : Nat) (p : Option Ptr) :
    Option (List (Ptr × Node α)) :=
  chainSeg h n p none

namespace LinkedList

variable {α : Type}

/-- The structural invariant of `LinkedList`:
* every allocated address is below the allocator counter `fresh`;
* following `next` from `head` exactly `len` times visits a chain of nodes
  and then reaches none;
* `tail` is the address of the last node of that chain (none when empty);
* the chain visits pairwise distinct addresses (each node is owned once).

`len = 0 ↔ head = none ↔ tail = none` is a consequence: a chain of length
`0` forces `head = none`, a positive one forces `head` to be an address, and
`tail` is the last element of a list of length `len`. -/
def Inv (l : LinkedList α) : Prop :=
  (∀ e ∈ l.heap, e.1 < l.fresh) ∧
  ∃ cs, chain l.heap l.len l.head = some cs ∧
    l.tail = (cs.map Prod.fst).getLast? ∧
    (cs.map Prod.fst).Nodup

/-- The sequence of elements stored in the list, read off the chain. -/
def elems (l : LinkedList α) : Option (List α) :=
  (chain l.heap l.len l.head).map (List.map (fun e => e.2.element))

/-- The sequence of node addresses of the list, read off the chain. -/
def ptrs (l : LinkedList α) : Option (List Ptr) :=
  (chain l.heap l.len l.head).map (List.map Prod.fst)

end LinkedList

/-!
## Heap lemmas
-/

namespace Heap

variable {α : Type}

@[simp]
theorem lookup_nil (p : Ptr) : (([] : Heap α).lookup p) = none := rfl

@[simp]
theorem lookup_cons (q : Ptr) (n : Node α) (h : Heap α) (p : Ptr) :
    Heap.lookup ((q, n) :: h) p = if q = p then some n else h.lookup p := rfl

theorem lookup_mem {h : Heap α} {p : Ptr} {nd : Node α}
    (hl : h.lookup p = some nd) : (p, nd) ∈ h := by
  induction h with
  | nil => simp [Heap.lookup] at hl
  | cons e t ih =>
    obtain ⟨q, n⟩ := e
    rw [lookup_cons] at hl
    by_cases hqp : q = p
    · subst hqp
      simp at hl
      subst hl
      exact List.mem_cons_self _ _
    · simp [hqp] at hl
      exact List.mem_cons_of_mem _ (ih hl)

theorem lookup_mapEntry (f : Node α → Node α) (p : Ptr) (h : Heap α)
    (r : Ptr) :
    Heap.lookup (h.map (fun e => if e.1 = p then (e.1, f e.2) else e)) r =
      (h.lookup r).map (fun nd => if r = p then f nd else nd) := by
  induction h with
  | nil => rfl
  | cons e t ih =>
    obtain ⟨q, n⟩ := e
    show Heap.lookup
        ((if q = p then (q, f n) else (q, n)) ::
          t.map (fun e => if e.1 = p then (e.1, f e.2) else e)) r = _
    by_cases hqp : q = p
    · subst hqp
      rw [if_pos rfl]
      by_cases hqr : q = r
      · subst hqr
        rw [lookup_cons, if_pos rfl, lookup_cons, if_pos rfl]
        simp
      · rw [lookup_cons, if_neg hqr, lookup_cons, if_neg hqr]
        exact ih
    · rw [if_neg hqp]
      by_cases hqr : q = r
      · subst hqr
        rw [lookup_cons, if_pos rfl, lookup_cons, if_pos rfl]
        simp
        rw [if_neg hqp]
      · rw [lookup_cons, if_neg hqr, lookup_cons, if_neg hqr]
        exact ih

theorem lookup_setNext (h : Heap α) (p r : Ptr) (nx : Option Ptr) :
    (h.setNext p nx).lookup r =
      (h.lookup r).map
        (fun nd => if r = p then { nd with next := nx } else nd) :=
  lookup_mapEntry (fun nd => { nd with next := nx }) p h r

theorem lookup_setElement (h : Heap α) (p r : Ptr) (x : α) :
    (h.setElement p x).lookup r =
      (h.lookup r).map
        (fun nd => if r = p then { nd with element := x } else nd) :=
  lookup_mapEntry (fun nd => { nd with element := x }) p h r

theorem lookup_free (h : Heap α) (p r : Ptr) :
    (h.free p).lookup r = if r = p then none else h.lookup r := by
  induction h with
  | nil =>
    show (none : Option (Node α)) = if r = p then none else none
    rw [ite_self]
  | cons e t ih =>
    obtain ⟨q, n⟩ := e
    show Heap.lookup (if q = p then Heap.free t p
      else (q, n) :: Heap.free t p) r = _
    by_cases hqp : q = p
    · subst hqp
      rw [if_pos rfl, ih]
      by_cases hrq : r = q
      · rw [if_pos hrq, if_pos hrq]
      · rw [if_neg hrq, if_neg hrq, lookup_cons,
          if_neg (fun hh => hrq hh.symm)]
    · rw [if_neg hqp, lookup_cons, ih]
      by_cases hqr : q = r
      · subst hqr
        rw [if_pos rfl, if_neg hqp, lookup_cons, if_pos rfl]
      · rw [if_neg hqr, lookup_cons, if_neg hqr]

theorem mem_of_mem_free {h : Heap α} {p : Ptr} {e : Ptr × Node α}
    (he : e ∈ h.free p) : e ∈ h := by
  induction h with
  | nil => exact absurd he (List.not_mem_nil e)
  | cons e' t ih =>
    obtain ⟨q, n⟩ := e'
    by_cases hqp : q = p
    · refine List.mem_cons_of_mem _ (ih ?_)
      rw [show Heap.free ((q, n) :: t) p = Heap.free t p from by
        show (if q = p then _ else _) = _
        rw [if_pos hqp]] at he
      exact he
    · rw [show Heap.free ((q, n) :: t) p = (q, n) :: Heap.free t p from by
        show (if q = p then _ else _) = _
        rw [if_neg hqp]] at he
      rcases List.mem_cons.mp he with h1 | h1
      · exact h1 ▸ List.mem_cons_self _ _
      · exact List.mem_cons_of_mem _ (ih h1)

theorem fst_mem_mapEntry {f : Node α → Node α} {p : Ptr} {h : Heap α}
    {e : Ptr × Node α}
    (he : e ∈ h.map (fun e => if e.1 = p then (e.1, f e.2) else e)) :
    ∃ e' ∈ h, e.1 = e'.1 := by
  obtain ⟨e', he', heq⟩ := List.mem_map.mp he
  refine ⟨e', he', ?_⟩
  by_cases h1 : e'.1 = p
  · rw [if_pos h1] at heq
    rw [← heq]
  · rw [if_neg h1] at heq
    rw [← heq]

theorem fst_mem_setNext {h : Heap α} {p : Ptr} {nx : Option Ptr}
    {e : Ptr × Node α} (he : e ∈ h.setNext p nx) :
    ∃ e' ∈ h, e.1 = e'.1 :=
  @fst_mem_mapEntry α (fun nd => { nd with next := nx }) p h e he

theorem fst_mem_setElement {h : Heap α} {p : Ptr} {x : α}
    {e : Ptr × Node α} (he : e ∈ h.setElement p x) :
    ∃ e' ∈ h, e.1 = e'.1 :=
  @fst_mem_mapEntry α (fun nd => { nd with element := x }) p h e he

end Heap

/-!
## Chain lemmas
-/

section ChainLemmas

variable {α : Type}

@[simp]
theorem chainSeg_zero (h : Heap α) (p q : Option Ptr) :
    chainSeg h 0 p q = if p = q then some [] else none := rfl

@[simp]
theorem chainSeg_succ (h : Heap α) (n : Nat) (p q : Option Ptr) :
    chainSeg h (n + 1) p q =
      p.bind (fun r => (h.lookup r).bind (fun nd =>
        (chainSeg h n nd.next q).map (fun cs => (r, nd) :: cs))) := rfl

theorem chainSeg_succ_inv {h : Heap α} {n : Nat} {p q : Option Ptr}
    {cs : List (Ptr × Node α)} (hc : chainSeg h (n + 1) p q = some cs) :
    ∃ r nd cs', p = some r ∧ h.lookup r = some nd ∧
      chainSeg h n nd.next q = some cs' ∧ cs = (r, nd) :: cs' := by
  rw [chainSeg_succ] at hc
  obtain ⟨r, hp, hc⟩ := Option.bind_eq_some.mp hc
  obtain ⟨nd, hl, hc⟩ := Option.bind_eq_some.mp hc
  obtain ⟨cs', hcs, hc⟩ := Option.map_eq_some'.mp hc
  exact ⟨r, nd, cs', hp, hl, hcs, hc.symm⟩

theorem chainSeg_zero_inv {h : Heap α} {p q : Option Ptr}
    {cs : List (Ptr × Node α)} (hc : chainSeg h 0 p q = some cs) :
    p = q ∧ cs = [] := by
  rw [chainSeg_zero] at hc
  by_cases hpq : p = q
  · rw [if_pos hpq] at hc
    exact ⟨hpq, (Option.some_inj.mp hc).symm⟩
  · rw [if_neg hpq] at hc
    exact absurd hc (by simp)

theorem chainSeg_self (h : Heap α) (p : Option Ptr) :
    chainSeg h 0 p p = some [] := by
  rw [chainSeg_zero, if_pos rfl]

theorem chainSeg_one {h : Heap α} {r : Ptr} {nd : Node α}
    (hl : h.lookup r = some nd) :
    chainSeg h 1 (some r) nd.next = some [(r, nd)] := by
  simp [hl, chainSeg_self]

theorem chainSeg_length {h : Heap α} :
    ∀ {n : Nat} {p q : Option Ptr} {cs : List (Ptr × Node α)},
      chainSeg h n p q = some cs → cs.length = n := by
  intro n
  induction n with
  | zero =>
    intro p q cs hc
    rw [(chainSeg_zero_inv hc).2]
    rfl
  | succ m ih =>
    intro p q cs hc
    obtain ⟨r, nd, cs', _, _, hcs, hval⟩ := chainSeg_succ_inv hc
    rw [hval, List.length_cons, ih hcs]

theorem chainSeg_append {h : Heap α} :
    ∀ {m : Nat} {n : Nat} {p q r : Option Ptr}
      {cs ds : List (Ptr × Node α)},
      chainSeg h m p q = some cs → chainSeg h n q r = some ds →
      chainSeg h (m + n) p r = some (cs ++ ds) := by
  intro m
  induction m with
  | zero =>
    intro n p q r cs ds h1 h2
    obtain ⟨hpq, hcs⟩ := chainSeg_zero_inv h1
    subst hpq
    rw [hcs, List.nil_append, Nat.zero_add]
    exact h2
  | succ k ih =>
    intro n p q r cs ds h1 h2
    obtain ⟨s, nd, cs', hp, hl, hcs, hval⟩ := chainSeg_succ_inv h1
    subst hp
    subst hval
    have : k + 1 + n = (k + n) + 1 := by omega
    rw [this, chainSeg_succ]
    simp [hl, ih hcs h2]

theorem chainSeg_split {h : Heap α} :
    ∀ {m : Nat} {n : Nat} {p r : Option Ptr} {es : List (Ptr × Node α)},
      chainSeg h (m + n) p r = some es →
      ∃ q, chainSeg h m p q = some (es.take m) ∧
        chainSeg h n q r = some (es.drop m) := by
  intro m
  induction m with
  | zero =>
    intro n p r es hc
    rw [Nat.zero_add] at hc
    exact ⟨p, chainSeg_self h p, hc⟩
  | succ k ih =>
    intro n p r es hc
    have : k + 1 + n = (k + n) + 1 := by omega
    rw [this] at hc
    obtain ⟨s, nd, cs', hp, hl, hcs, hval⟩ := chainSeg_succ_inv hc
    subst hp
    subst hval
    obtain ⟨q, hq1, hq2⟩ := ih hcs
    refine ⟨q, ?_, hq2⟩
    rw [List.take_succ_cons, chainSeg_succ]
    simp [hl, hq1]

theorem chainSeg_frame {h h' : Heap α} :
    ∀ {n : Nat} {p q : Option Ptr} {cs : List (Ptr × Node α)},
      chainSeg h n p q = some cs →
      (∀ e ∈ cs, h'.lookup e.1 = h.lookup e.1) →
      chainSeg h' n p q = some cs := by
  intro n
  induction n with
  | zero =>
    intro p q cs hc _
    obtain ⟨hpq, hcs⟩ := chainSeg_zero_inv hc
    subst hpq
    rw [hcs]
    exact chainSeg_self h' p
  | succ k ih =>
    intro p q cs hc hsame
    obtain ⟨r, nd, cs', hp, hl, hcs, hval⟩ := chainSeg_succ_inv hc
    subst hp
    subst hval
    have hl' : h'.lookup r = some nd := by
      rw [hsame (r, nd) (List.mem_cons_self _ _)]
      exact hl
    rw [chainSeg_succ]
    simp [hl',
      ih hcs (fun e he => hsame e (List.mem_cons_of_mem _ he))]

theorem chainSeg_lookup {h : Heap α} :
    ∀ {n : Nat} {p q : Option Ptr} {cs : List (Ptr × Node α)},
      chainSeg h n p q = some cs → ∀ e ∈ cs, h.lookup e.1 = some e.2 := by
  intro n
  induction n with
  | zero =>
    intro p q cs hc e he
    rw [(chainSeg_zero_inv hc).2] at he
    exact absurd he (List.not_mem_nil e)
  | succ k ih =>
    intro p q cs hc e he
    obtain ⟨r, nd, cs', _, hl, hcs, hval⟩ := chainSeg_succ_inv hc
    subst hval
    rcases List.mem_cons.mp he with h1 | h1
    · subst h1
      exact hl
    · exact ih hcs e h1

theorem chain_zero_inv {h : Heap α} {p : Option Ptr}
    {cs : List (Ptr × Node α)} (hc : chain h 0 p = some cs) :
    p = none ∧ cs = [] :=
  chainSeg_zero_inv hc

theorem chain_head_some {h : Heap α} {n : Nat} {p : Option Ptr}
    {cs : List (Ptr × Node α)} (hc : chain h n p = some cs) (hn : n ≠ 0) :
    ∃ r, p = some r := by
  cases n with
  | zero => exact absurd rfl hn
  | succ k =>
    obtain ⟨r, _, _, hp, _, _, _⟩ := chainSeg_succ_inv hc
    exact ⟨r, hp⟩

end ChainLemmas

/-!
## Frame lemmas: heap mutations away from a chain preserve it
-/

section FrameLemmas

variable {α : Type}

theorem chainSeg_frame_alloc {h : Heap α} {n : Nat} {p q : Option Ptr}
    {cs : List (Ptr × Node α)} {a : Ptr} {nd : Node α}
    (hc : chainSeg h n p q = some cs) (ha : ∀ e ∈ cs, e.1 ≠ a) :
    chainSeg ((a, nd) :: h) n p q = some cs :=
  chainSeg_frame hc (fun e he => by
    rw [Heap.lookup_cons, if_neg (fun hh => (ha e he) hh.symm)])

theorem chainSeg_frame_setNext {h : Heap α} {n : Nat} {p q : Option Ptr}
    {cs : List (Ptr × Node α)} {t : Ptr} {nx : Option Ptr}
    (hc : chainSeg h n p q = some cs) (ht : ∀ e ∈ cs, e.1 ≠ t) :
    chainSeg (h.setNext t nx) n p q = some cs :=
  chainSeg_frame hc (fun e he => by
    rw [Heap.lookup_setNext]
    cases h.lookup e.1 with
    | none => rfl
    | some nd => simp [if_neg (ht e he)])

theorem chainSeg_frame_free {h : Heap α} {n : Nat} {p q : Option Ptr}
    {cs : List (Ptr × Node α)} {t : Ptr}
    (hc : chainSeg h n p q = some cs) (ht : ∀ e ∈ cs, e.1 ≠ t) :
    chainSeg (h.free t) n p q = some cs :=
  chainSeg_frame hc (fun e he => by
    rw [Heap.lookup_free, if_neg (ht e he)])

theorem chain_mem_lt {h : Heap α} {f : Ptr} {n : Nat} {p q : Option Ptr}
    {cs : List (Ptr × Node α)} (hb : ∀ e ∈ h, e.1 < f)
    (hc : chainSeg h n p q = some cs) : ∀ e ∈ cs, e.1 < f :=
  fun e he => hb _ (Heap.lookup_mem (chainSeg_lookup hc e he))

theorem getLast?_cons_of_ne_nil {β : Type} {a : β} {l : List β}
    (hl : l ≠ []) : (a :: l).getLast? = l.getLast? := by
  cases l with
  | nil => exact absurd rfl hl
  | cons b t => exact List.getLast?_cons_cons

end FrameLemmas

/-!
## Consequences of the invariant
-/

namespace LinkedList

variable {α : Type}

theorem Inv.chain_some {l : LinkedList α} (hInv : Inv l) :
    ∃ cs, chain l.heap l.len l.head = some cs :=
  ⟨hInv.2.choose, hInv.2.choose_spec.1⟩

theorem Inv.elems_some {l : LinkedList α} (hInv : Inv l) :
    ∃ es, elems l = some es ∧ es.length = l.len := by
  obtain ⟨cs, hc⟩ := hInv.chain_some
  exact ⟨cs.map (fun e => e.2.element), by rw [elems, hc, Option.map_some'],
    by rw [List.length_map]; exact chainSeg_length hc⟩

theorem Inv.len_zero_iff_head {l : LinkedList α} (hInv : Inv l) :
    l.len = 0 ↔ l.head = none := by
  obtain ⟨_, cs, hc, _, _⟩ := hInv
  constructor
  · intro h0
    rw [h0] at hc
    exact (chain_zero_inv hc).1
  · intro hh
    by_contra hne
    obtain ⟨r, hr⟩ := chain_head_some hc hne
    rw [hh] at hr
    exact Option.noConfusion hr

theorem Inv.len_zero_iff_tail {l : LinkedList α} (hInv : Inv l) :
    l.len = 0 ↔ l.tail = none := by
  obtain ⟨_, cs, hc, ht, _⟩ := hInv
  have hlen : cs.length = l.len := chainSeg_length hc
  constructor
  · intro h0
    have : cs = [] := List.length_eq_zero.mp (by rw [hlen, h0])
    rw [ht, this]
    rfl
  · intro htn
    rw [htn] at ht
    have : cs.map Prod.fst = [] :=
      List.getLast?_eq_none_iff.mp ht.symm
    have : cs = [] := by
      cases cs with
      | nil => rfl
      | cons e t => exact absurd this (by simp)
    rw [← hlen, this]
    rfl

end LinkedList

/-!
## Operation specifications
-/

namespace LinkedList

variable {α : Type}

theorem Inv_new : Inv (new : LinkedList α) := by
  refine ⟨?_, [], ?_, rfl, List.nodup_nil⟩
  · intro e he
    exact absurd he (List.not_mem_nil e)
  · exact chainSeg_self [] none

/-- `push_front` specification: the invariant is preserved, the new chain is
the fresh node (holding `x`, pointing at the old head) followed by the old
chain, and the element sequence gains `x` in front. -/
theorem pushFront_spec {l : LinkedList α} (hInv : Inv l) (x : α) :
    Inv (l.pushFront x) ∧
    (∀ cs, chain l.heap l.len l.head = some cs →
      chain (l.pushFront x).heap (l.pushFront x).len (l.pushFront x).head =
        some ((l.fresh, ⟨x, l.head⟩) :: cs)) ∧
    elems (l.pushFront x) = (elems l).map (fun es => x :: es) := by
  obtain ⟨hb, cs, hc, ht, hnd⟩ := hInv
  have hkeys : ∀ e ∈ cs, e.1 < l.fresh := chain_mem_lt hb hc
  have hchain' : chain (l.pushFront x).heap (l.pushFront x).len
      (l.pushFront x).head = some ((l.fresh, ⟨x, l.head⟩) :: cs) := by
    have hfr : chainSeg ((l.fresh, (⟨x, l.head⟩ : Node α)) :: l.heap)
        l.len l.head none = some cs :=
      chainSeg_frame_alloc hc
        (fun e he => Nat.ne_of_lt (hkeys e he))
    have hlk : Heap.lookup ((l.fresh, (⟨x, l.head⟩ : Node α)) :: l.heap)
        l.fresh = some ⟨x, l.head⟩ := by
      rw [Heap.lookup_cons, if_pos rfl]
    have hstep := chainSeg_one hlk
    have := chainSeg_append hstep hfr
    rw [Nat.add_comm 1 l.len] at this
    exact this
  refine ⟨⟨?_, (l.fresh, ⟨x, l.head⟩) :: cs, hchain', ?_, ?_⟩,
    fun cs' hcs' => by rw [hc] at hcs'; rw [← Option.some_inj.mp hcs']; exact hchain', ?_⟩
  · intro e he
    show e.1 < l.fresh + 1
    rcases List.mem_cons.mp he with h1 | h1
    · rw [h1]
      exact Nat.lt_succ_self _
    · exact Nat.lt_succ_of_lt (hb e h1)
  · show (if l.tail.isNone then some l.fresh else l.tail) =
      (((l.fresh, (⟨x, l.head⟩ : Node α)) :: cs).map Prod.fst).getLast?
    by_cases hcs : cs = []
    · subst hcs
      have htn : l.tail = none := by rw [ht]; rfl
      rw [htn]
      simp
    · have hkne : cs.map Prod.fst ≠ [] := by
        cases cs with
        | nil => exact absurd rfl hcs
        | cons e t => simp
      have htail_some : ∃ t', l.tail = some t' := by
        rw [ht]
        cases hg : (cs.map Prod.fst).getLast? with
        | none => exact absurd (List.getLast?_eq_none_iff.mp hg) hkne
        | some t' => exact ⟨t', rfl⟩
      obtain ⟨t', ht'⟩ := htail_some
      rw [List.map_cons, getLast?_cons_of_ne_nil hkne, ← ht, ht']
      simp
  · rw [List.map_cons]
    refine List.Nodup.cons ?_ hnd
    intro hmem
    have : ∃ e ∈ cs, e.1 = l.fresh := by
      obtain ⟨e, he, heq⟩ := List.mem_map.mp hmem
      exact ⟨e, he, heq⟩
    obtain ⟨e, he, heq⟩ := this
    exact absurd heq (Nat.ne_of_lt (hkeys e he))
  · rw [elems, elems, hchain', hc, Option.map_some', Option.map_some',
      List.map_cons]
    rfl

theorem pushBack_eq_of_tail_none {l : LinkedList α} {x : α}
    (htl : l.tail = none) :
    l.pushBack x =
      { heap := (l.fresh, ⟨x, none⟩) :: l.heap, head := some l.fresh,
        tail := some l.fresh, len := l.len + 1, fresh := l.fresh + 1 } := by
  unfold pushBack
  rw [htl]

theorem pushBack_eq_of_tail_some {l : LinkedList α} {x : α} {t : Ptr}
    (htl : l.tail = some t) :
    l.pushBack x =
      { heap := Heap.setNext ((l.fresh, ⟨x, none⟩) :: l.heap) t
          (some l.fresh),
        head := l.head, tail := some l.fresh, len := l.len + 1,
        fresh := l.fresh + 1 } := by
  unfold pushBack
  rw [htl]

/-- The last entry of a non-empty chain segment is a node whose `next` is
the segment's end pointer, and the rest is a segment up to that node. -/
theorem chainSeg_last {h : Heap α} {n : Nat} {p q : Option Ptr}
    {cs : List (Ptr × Node α)} {e : Ptr × Node α}
    (hc : chainSeg h n p q = some cs) (hg : cs.getLast? = some e) :
    h.lookup e.1 = some e.2 ∧ e.2.next = q ∧
    chainSeg h (n - 1) p (some e.1) = some cs.dropLast := by
  have hne : cs ≠ [] := by
    intro hnil
    rw [hnil] at hg
    exact Option.noConfusion hg
  have hlen : cs.length = n := chainSeg_length hc
  have hn1 : n = (n - 1) + 1 := by
    have : 0 < cs.length := List.length_pos.mpr hne
    omega
  rw [hn1] at hc
  obtain ⟨qm, h1, h2⟩ := chainSeg_split hc
  have hdl : cs.dropLast.length = n - 1 := by
    rw [List.length_dropLast, hlen]
  have hcs_eq : cs.dropLast ++ [cs.getLast hne] = cs :=
    List.dropLast_append_getLast hne
  have htake : cs.take (n - 1) = cs.dropLast := by
    conv_lhs => rw [← hcs_eq]
    rw [List.take_left' hdl]
  have hdrop : cs.drop (n - 1) = [e] := by
    conv_lhs => rw [← hcs_eq]
    rw [List.drop_left' hdl]
    rw [List.getLast?_eq_getLast cs hne] at hg
    rw [Option.some_inj.mp hg]
  rw [hdrop] at h2
  rw [htake] at h1
  obtain ⟨r, nd, cs', hq, hl, hcs0, hval⟩ := chainSeg_succ_inv h2
  injection hval with he1 he2
  subst he2
  have hnx : nd.next = q := (chainSeg_zero_inv hcs0).1
  rw [he1]
  rw [hq] at h1
  exact ⟨hl, hnx, h1⟩

theorem not_mem_dropLast_of_nodup {β : Type} {ks : List β} {t : β}
    (hnd : ks.Nodup) (hg : ks.getLast? = some t) : t ∉ ks.dropLast := by
  have hne : ks ≠ [] := by
    intro hnil
    rw [hnil] at hg
    exact Option.noConfusion hg
  have hgl : ks.getLast hne = t := by
    rw [List.getLast?_eq_getLast ks hne] at hg
    exact Option.some_inj.mp hg
  have hks : ks.dropLast ++ [t] = ks := by
    rw [← hgl]
    exact List.dropLast_append_getLast hne
  rw [← hks] at hnd
  rw [List.nodup_append] at hnd
  intro hmem
  exact hnd.2.2 hmem (List.mem_singleton_self t)

theorem map_dropLast_concat {γ : Type} {α : Type}
    {cs : List (Ptr × Node α)} {e : Ptr × Node α}
    (hge : cs.getLast? = some e) (g : Ptr × Node α → γ) :
    cs.dropLast.map g ++ [g e] = cs.map g := by
  have hne : cs ≠ [] := by
    intro hnil
    rw [hnil] at hge
    exact Option.noConfusion hge
  have hgl : cs.getLast hne = e := by
    rw [List.getLast?_eq_getLast cs hne] at hge
    exact Option.some_inj.mp hge
  conv_rhs => rw [← List.dropLast_append_getLast hne]
  rw [List.map_append, hgl]
  rfl

/-- `push_back` specification: the invariant is preserved, the element
sequence gains `x` at the back, the new tail is the freshly allocated node,
and the length grows by one. -/
theorem pushBack_spec {l : LinkedList α} (hInv : Inv l) (x : α) :
    Inv (l.pushBack x) ∧
    elems (l.pushBack x) = (elems l).map (fun es => es ++ [x]) ∧
    (l.pushBack x).tail = some l.fresh ∧
    (l.pushBack x).len = l.len + 1 := by
  obtain ⟨hb, cs, hc, ht, hnd⟩ := hInv
  have hkeys : ∀ e ∈ cs, e.1 < l.fresh := chain_mem_lt hb hc
  cases htl : l.tail with
  | none =>
    rw [pushBack_eq_of_tail_none htl]
    have hcs : cs = [] := by
      rw [htl] at ht
      have hk := List.getLast?_eq_none_iff.mp ht.symm
      cases cs with
      | nil => rfl
      | cons a t => exact absurd hk (by simp)
    have hlen0 : l.len = 0 := by
      have := chainSeg_length hc
      rw [hcs] at this
      exact this.symm
    have hhd : l.head = none := (chain_zero_inv (hlen0 ▸ hc)).1
    have hlk : Heap.lookup ((l.fresh, (⟨x, none⟩ : Node α)) :: l.heap)
        l.fresh = some ⟨x, none⟩ := by
      rw [Heap.lookup_cons, if_pos rfl]
    have hch := chainSeg_one hlk
    refine ⟨⟨?_, [(l.fresh, ⟨x, none⟩)], ?_, rfl, by simp⟩, ?_, rfl, rfl⟩
    · intro e he
      show e.1 < l.fresh + 1
      rcases List.mem_cons.mp he with h1 | h1
      · rw [h1]
        exact Nat.lt_succ_self _
      · exact Nat.lt_succ_of_lt (hb e h1)
    · show chain _ (l.len + 1) (some l.fresh) = _
      rw [hlen0]
      exact hch
    · show elems _ = _
      rw [elems, elems, hc, Option.map_some']
      show (chainSeg _ (l.len + 1) (some l.fresh) none).map _ = _
      rw [hlen0, hch, Option.map_some', hcs]
      rfl
  | some t =>
    rw [pushBack_eq_of_tail_some htl]
    rw [htl] at ht
    have hgk : (cs.map Prod.fst).getLast? = some t := ht.symm
    have hgl : ∃ e, cs.getLast? = some e ∧ e.1 = t := by
      rw [List.getLast?_map] at hgk
      cases hge : cs.getLast? with
      | none => rw [hge] at hgk; exact Option.noConfusion hgk
      | some e =>
        rw [hge, Option.map_some'] at hgk
        exact ⟨e, rfl, Option.some_inj.mp hgk⟩
    obtain ⟨e, hge, het⟩ := hgl
    obtain ⟨hlk_t, hnx_e, hseg⟩ := chainSeg_last hc hge
    have hne : cs ≠ [] := by
      intro hnil
      rw [hnil] at hge
      exact Option.noConfusion hge
    have hlen : cs.length = l.len := chainSeg_length hc
    have hpos : 1 ≤ l.len := by
      rw [← hlen]
      exact List.length_pos.mpr hne
    have hlk_t' : l.heap.lookup t = some e.2 := het ▸ hlk_t
    have htf : t < l.fresh := hb _ (Heap.lookup_mem hlk_t')
    have htf' : t ≠ l.fresh := Nat.ne_of_lt htf
    have hlk2 : Heap.lookup
        (Heap.setNext ((l.fresh, ⟨x, none⟩) :: l.heap) t (some l.fresh)) t =
        some { e.2 with next := some l.fresh } := by
      rw [Heap.lookup_setNext, Heap.lookup_cons,
        if_neg (fun hh => htf' hh.symm), hlk_t', Option.map_some',
        if_pos rfl]
    have hlk3 : Heap.lookup
        (Heap.setNext ((l.fresh, ⟨x, none⟩) :: l.heap) t (some l.fresh))
        l.fresh = some ⟨x, none⟩ := by
      rw [Heap.lookup_setNext, Heap.lookup_cons, if_pos rfl,
        Option.map_some', if_neg (fun hh => htf' hh.symm)]
    have hmem_dl : ∀ e' ∈ cs.dropLast, e' ∈ cs :=
      fun e' he' => (List.dropLast_sublist cs).subset he'
    have hnot_t : ∀ e' ∈ cs.dropLast, e'.1 ≠ t := by
      intro e' he' habs
      have : t ∈ (cs.map Prod.fst).dropLast := by
        rw [← List.map_dropLast]
        exact List.mem_map.mpr ⟨e', he', habs⟩
      exact not_mem_dropLast_of_nodup hnd hgk this
    have hseg' : chainSeg l.heap (l.len - 1) l.head (some t) =
        some cs.dropLast := het ▸ hseg
    have hS1 : chainSeg
        (Heap.setNext ((l.fresh, ⟨x, none⟩) :: l.heap) t (some l.fresh))
        (l.len - 1) l.head (some t) = some cs.dropLast := by
      refine chainSeg_frame_setNext (chainSeg_frame_alloc hseg' ?_) hnot_t
      intro e' he'
      exact Nat.ne_of_lt (hkeys e' (hmem_dl e' he'))
    have hS2 := chainSeg_one hlk2
    have hS3 := chainSeg_one hlk3
    have happ := chainSeg_append (chainSeg_append hS1 hS2) hS3
    rw [show l.len - 1 + 1 + 1 = l.len + 1 from by omega] at happ
    have hkeys_eq : cs.dropLast.map Prod.fst ++ [t] = cs.map Prod.fst := by
      have := map_dropLast_concat hge Prod.fst
      rw [het] at this
      exact this
    refine ⟨⟨?_, cs.dropLast ++ [(t, { e.2 with next := some l.fresh })] ++
      [(l.fresh, ⟨x, none⟩)], ?_, ?_, ?_⟩, ?_, rfl, rfl⟩
    · intro e' he'
      show e'.1 < l.fresh + 1
      obtain ⟨e'', he'', heq⟩ := Heap.fst_mem_setNext he'
      rw [heq]
      rcases List.mem_cons.mp he'' with h1 | h1
      · rw [h1]
        exact Nat.lt_succ_self _
      · exact Nat.lt_succ_of_lt (hb e'' h1)
    · exact happ
    · show some l.fresh = _
      simp only [List.map_append, List.map_cons, List.map_nil]
      rw [List.getLast?_concat]
    · simp only [List.map_append, List.map_cons, List.map_nil]
      show ((cs.dropLast.map Prod.fst ++ [t]) ++ [l.fresh]).Nodup
      rw [hkeys_eq, List.nodup_append]
      refine ⟨hnd, List.nodup_singleton _, ?_⟩
      intro a ha ha'
      rw [List.mem_singleton.mp ha'] at ha
      obtain ⟨e'', he'', heq⟩ := List.mem_map.mp ha
      exact absurd heq (Nat.ne_of_lt (hkeys e'' he''))
    · show elems _ = _
      rw [elems, elems, hc, Option.map_some']
      show (chainSeg _ (l.len + 1) l.head none).map _ = _
      rw [show (chainSeg
          (Heap.setNext ((l.fresh, ⟨x, none⟩) :: l.heap) t (some l.fresh))
          (l.len + 1) l.head none) =
        some (cs.dropLast ++ [(t, { e.2 with next := some l.fresh })] ++
          [(l.fresh, ⟨x, none⟩)]) from happ, Option.map_some',
        Option.map_some']
      simp only [List.map_append, List.map_cons, List.map_nil]
      have := map_dropLast_concat hge (fun e' => e'.2.element)
      rw [show ({ e.2 with next := some l.fresh } : Node α).element =
        e.2.element from rfl, this]

theorem popFront_eq_of_head_none {l : LinkedList α} (hh : l.head = none) :
    l.popFront = some (none, l) := by
  unfold popFront
  rw [hh]

theorem popFront_eq_of_head_some {l : LinkedList α} {p : Ptr} {nd : Node α}
    (hh : l.head = some p) (hl : l.heap.lookup p = some nd) :
    l.popFront = some (some nd.element,
      { heap := l.heap.free p, head := nd.next,
        tail := if nd.next.isNone then none else l.tail,
        len := l.len - 1, fresh := l.fresh }) := by
  simp only [popFront, hh, hl]

/-- `pop_front` specification: the call never faults under the invariant; on
an empty list it returns none and leaves the state untouched; otherwise it
returns the head element, the state keeps the invariant, and the element
sequence loses its first entry. -/
theorem popFront_spec {l : LinkedList α} (hInv : Inv l) :
    ∃ out l', l.popFront = some (out, l') ∧ Inv l' ∧
      l'.len = l.len - 1 ∧
      (l.len = 0 → out = none ∧ l' = l) ∧
      (∀ es, elems l = some es →
        out = es.head? ∧ elems l' = some es.tail) := by
  obtain ⟨hb, cs, hc, ht, hnd⟩ := hInv
  cases hh : l.head with
  | none =>
    have hlen0 : l.len = 0 :=
      (Inv.len_zero_iff_head ⟨hb, cs, hc, ht, hnd⟩).mpr hh
    have hcs : cs = [] := (chain_zero_inv (hlen0 ▸ hc)).2
    refine ⟨none, l, popFront_eq_of_head_none hh,
      ⟨hb, cs, hc, ht, hnd⟩, by omega, fun _ => ⟨rfl, rfl⟩, ?_⟩
    intro es hes
    rw [elems, hc, Option.map_some', hcs] at hes
    rw [← Option.some_inj.mp hes]
    refine ⟨rfl, ?_⟩
    rw [elems, hc, Option.map_some', hcs]
    rfl
  | some p =>
    have hlen : cs.length = l.len := chainSeg_length hc
    have hn0 : l.len ≠ 0 := by
      intro h0
      rw [(Inv.len_zero_iff_head ⟨hb, cs, hc, ht, hnd⟩).mp h0] at hh
      exact Option.noConfusion hh
    obtain ⟨k, hk⟩ : ∃ k, l.len = k + 1 := ⟨l.len - 1, by omega⟩
    rw [chain, hk] at hc
    obtain ⟨r, nd, cs', hp, hl, hcs', hval⟩ := chainSeg_succ_inv hc
    rw [hh] at hp
    obtain rfl : p = r := Option.some_inj.mp hp
    subst hval
    rw [hh] at hc
    have hndk : (cs'.map Prod.fst).Nodup ∧ p ∉ cs'.map Prod.fst := by
      rw [List.map_cons] at hnd
      exact ⟨hnd.of_cons, (List.nodup_cons.mp hnd).1⟩
    have hfr : chainSeg (l.heap.free p) k nd.next none = some cs' := by
      refine chainSeg_frame_free hcs' ?_
      intro e' he' habs
      exact hndk.2 (List.mem_map.mpr ⟨e', he', habs⟩)
    refine ⟨some nd.element,
      { heap := l.heap.free p, head := nd.next,
        tail := if nd.next.isNone then none else l.tail,
        len := l.len - 1, fresh := l.fresh },
      popFront_eq_of_head_some hh hl, ⟨?_, cs', ?_, ?_, hndk.1⟩, rfl,
      fun h0 => absurd h0 hn0, ?_⟩
    · intro e' he'
      exact hb e' (Heap.mem_of_mem_free he')
    · show chainSeg _ (l.len - 1) nd.next none = _
      rw [hk]
      show chainSeg _ k nd.next none = _
      exact hfr
    · show (if nd.next.isNone then none else l.tail) = _
      cases hnx : nd.next with
      | none =>
        have hk0 : k = 0 := by
          rcases Nat.eq_zero_or_pos k with h0 | hpos
          · exact h0
          · obtain ⟨k', hk'⟩ : ∃ k', k = k' + 1 := ⟨k - 1, by omega⟩
            rw [hk', hnx] at hcs'
            exact absurd hcs' (by simp)
        have : cs' = [] := by
          have := chainSeg_length hcs'
          rw [hk0] at this
          exact List.length_eq_zero.mp this
        rw [this]
        rfl
      | some q =>
        have hkpos : k ≠ 0 := by
          intro h0
          rw [h0, hnx] at hcs'
          obtain ⟨habs, _⟩ := chainSeg_zero_inv hcs'
          exact Option.noConfusion habs
        have hcs'ne : cs' ≠ [] := by
          intro hnil
          rw [hnil] at hcs'
          exact hkpos (chainSeg_length hcs').symm
        have hkne : cs'.map Prod.fst ≠ [] := by
          cases cs' with
          | nil => exact absurd rfl hcs'ne
          | cons a t => simp
        show l.tail = _
        rw [ht, List.map_cons, getLast?_cons_of_ne_nil hkne]
    · intro es hes
      rw [elems, hk, chain, hh, hc, Option.map_some'] at hes
      rw [← Option.some_inj.mp hes]
      constructor
      · rfl
      · show elems _ = _
        rw [elems]
        show (chainSeg _ (l.len - 1) nd.next none).map _ = _
        rw [hk]
        show (chainSeg _ k nd.next none).map _ = _
        rw [hfr, Option.map_some']
        rfl

theorem mem_of_getLast?_eq {β : Type} {l : List β} {a : β}
    (h : l.getLast? = some a) : a ∈ l := by
  obtain ⟨hne, heq⟩ := List.mem_getLast?_eq_getLast h
  rw [heq]
  exact List.getLast_mem hne

theorem or_getLast?_dropLast {β : Type} (a : β) (l : List β) (hl : l ≠ [])
    (pen : Option β) :
    ((a :: l).dropLast.getLast?).or pen =
      (l.dropLast.getLast?).or (some a) := by
  cases l with
  | nil => exact absurd rfl hl
  | cons b t =>
    rw [List.dropLast_cons₂]
    cases hdl : (b :: t).dropLast with
    | nil => simp
    | cons c u =>
      rw [getLast?_cons_of_ne_nil (List.cons_ne_nil c u)]
      obtain ⟨z, hz⟩ : ∃ z, (c :: u).getLast? = some z :=
        ⟨(c :: u).getLast (List.cons_ne_nil c u),
          List.getLast?_eq_getLast _ _⟩
      rw [hz]
      rfl

/-- The `pop_back` search loop is correct: on a chain from `p` to none, it
returns the last address of the chain together with the second-to-last
address (or the initial accumulator when the chain has a single node). -/
theorem walkLast_spec {h : Heap α} :
    ∀ {fuel : Nat} {n : Nat} {p : Ptr} {cs : List (Ptr × Node α)}
      {pen : Option Ptr},
      chainSeg h n (some p) none = some cs → n ≤ fuel + 1 →
      ∃ t, (cs.map Prod.fst).getLast? = some t ∧
        walkLast h fuel p pen =
          some (t, ((cs.map Prod.fst).dropLast.getLast?).or pen) := by
  intro fuel
  induction fuel with
  | zero =>
    intro n p cs pen hc hn
    cases n with
    | zero => exact absurd (chainSeg_zero_inv hc).1 (by simp)
    | succ m =>
      obtain ⟨r, nd, cs', hp, hl, hcs', hval⟩ := chainSeg_succ_inv hc
      obtain rfl : p = r := Option.some_inj.mp hp
      subst hval
      have hm0 : m = 0 := by omega
      rw [hm0] at hcs'
      obtain ⟨hnx, hcs0⟩ := chainSeg_zero_inv hcs'
      subst hcs0
      refine ⟨p, rfl, ?_⟩
      simp [walkLast, hl, hnx]
  | succ f ih =>
    intro n p cs pen hc hn
    cases n with
    | zero => exact absurd (chainSeg_zero_inv hc).1 (by simp)
    | succ m =>
      obtain ⟨r, nd, cs', hp, hl, hcs', hval⟩ := chainSeg_succ_inv hc
      obtain rfl : p = r := Option.some_inj.mp hp
      subst hval
      cases hnx : nd.next with
      | none =>
        rw [hnx] at hcs'
        have hm0 : m = 0 := by
          cases m with
          | zero => rfl
          | succ m' => exact absurd hcs' (by simp)
        rw [hm0] at hcs'
        obtain ⟨_, hcs0⟩ := chainSeg_zero_inv hcs'
        subst hcs0
        refine ⟨p, rfl, ?_⟩
        simp [walkLast, hl, hnx]
      | some q =>
        rw [hnx] at hcs'
        have hmpos : m ≠ 0 := by
          intro h0
          rw [h0] at hcs'
          exact Option.noConfusion (chainSeg_zero_inv hcs').1
        have hcs'ne : cs' ≠ [] := by
          intro hnil
          rw [hnil] at hcs'
          exact hmpos (chainSeg_length hcs').symm
        have hkne : cs'.map Prod.fst ≠ [] := by
          cases cs' with
          | nil => exact absurd rfl hcs'ne
          | cons a u => simp
        obtain ⟨t, hget, hwalk⟩ := ih hcs' (by omega)
        refine ⟨t, ?_, ?_⟩
        · rw [List.map_cons, getLast?_cons_of_ne_nil hkne]
          exact hget
        · simp only [walkLast, hl, hnx]
          rw [hwalk, List.map_cons,
            or_getLast?_dropLast p (cs'.map Prod.fst) hkne pen]

theorem popBack_eq_of_tail_none {l : LinkedList α} (htl : l.tail = none) :
    l.popBack = some (none, l) := by
  simp only [popBack, htl]

theorem popBack_eq_of_pen_some {l : LinkedList α} {t hd lastp pp : Ptr}
    {tn : Node α} (htl : l.tail = some t)
    (hlkt : l.heap.lookup t = some tn) (hhd : l.head = some hd)
    (hwalk : walkLast l.heap l.len hd none = some (lastp, some pp)) :
    l.popBack = some (some tn.element,
      { heap := (l.heap.setNext pp none).free t, head := l.head,
        tail := some pp, len := l.len - 1, fresh := l.fresh }) := by
  simp only [popBack, htl, hlkt, hhd, hwalk]

theorem popBack_eq_of_pen_none {l : LinkedList α} {t hd lastp : Ptr}
    {tn : Node α} (htl : l.tail = some t)
    (hlkt : l.heap.lookup t = some tn) (hhd : l.head = some hd)
    (hwalk : walkLast l.heap l.len hd none = some (lastp, none)) :
    l.popBack = some (some tn.element,
      { heap := l.heap.free t, head := none, tail := none,
        len := l.len - 1, fresh := l.fresh }) := by
  simp only [popBack, htl, hlkt, hhd, hwalk]

/-- `pop_back` specification: under the invariant the call never faults; on
an empty list it returns none and leaves the state untouched; otherwise it
returns the last element, decrements `len`, drops the last element of the
sequence, clears `head` and `tail` when the list had one node, and when it
had at least two it keeps `head`, walks to the second-to-last node, makes it
the new `tail` and sets its `next` to none. -/
theorem popBack_spec {l : LinkedList α} (hInv : Inv l) :
    ∃ out l', l.popBack = some (out, l') ∧ Inv l' ∧
      l'.len = l.len - 1 ∧
      (l.len = 0 → out = none ∧ l' = l) ∧
      (∀ es, elems l = some es →
        out = es.getLast? ∧ elems l' = some es.dropLast) ∧
      (l.len = 1 → l'.head = none ∧ l'.tail = none) ∧
      (2 ≤ l.len → l'.head = l.head ∧
        ∃ pp ks, l'.tail = some pp ∧ ptrs l = some ks ∧
          ks.dropLast.getLast? = some pp ∧
          (l'.heap.lookup pp).map Node.next = some (none : Option Ptr)) := by
  obtain ⟨hb, cs, hc, ht, hnd⟩ := hInv
  cases htl : l.tail with
  | none =>
    have hlen0 : l.len = 0 :=
      (Inv.len_zero_iff_tail ⟨hb, cs, hc, ht, hnd⟩).mpr htl
    have hcs : cs = [] := (chain_zero_inv (hlen0 ▸ hc)).2
    refine ⟨none, l, popBack_eq_of_tail_none htl, ⟨hb, cs, hc, ht, hnd⟩,
      by omega, fun _ => ⟨rfl, rfl⟩, ?_, fun h1 => absurd h1 (by omega),
      fun h2 => absurd h2 (by omega)⟩
    intro es hes
    rw [elems, hc, Option.map_some', hcs] at hes
    rw [← Option.some_inj.mp hes]
    refine ⟨rfl, ?_⟩
    rw [elems, hc, Option.map_some', hcs]
    rfl
  | some t =>
    rw [htl] at ht
    have hgk : (cs.map Prod.fst).getLast? = some t := ht.symm
    have hgl : ∃ e, cs.getLast? = some e ∧ e.1 = t := by
      have hgk2 := hgk
      rw [List.getLast?_map] at hgk2
      cases hge : cs.getLast? with
      | none => rw [hge] at hgk2; exact Option.noConfusion hgk2
      | some e =>
        rw [hge, Option.map_some'] at hgk2
        exact ⟨e, rfl, Option.some_inj.mp hgk2⟩
    obtain ⟨e, hge, het⟩ := hgl
    obtain ⟨hlk_t, hnx_e, hseg⟩ := chainSeg_last hc hge
    have hlk_t' : l.heap.lookup t = some e.2 := het ▸ hlk_t
    have hne : cs ≠ [] := by
      intro hnil
      rw [hnil] at hge
      exact Option.noConfusion hge
    have hlen : cs.length = l.len := chainSeg_length hc
    have hpos : 1 ≤ l.len := by
      rw [← hlen]
      exact List.length_pos.mpr hne
    obtain ⟨hd, hhd⟩ := chain_head_some hc (by omega)
    have hcseg : chainSeg l.heap l.len (some hd) none = some cs := by
      rw [← hhd]
      exact hc
    obtain ⟨t₂, hget₂, hwalk⟩ :=
      @walkLast_spec α l.heap l.len l.len hd cs none hcseg (by omega)
    obtain rfl : t = t₂ := by
      rw [hget₂] at hgk
      exact (Option.some_inj.mp hgk).symm
    cases hpen : (cs.map Prod.fst).dropLast.getLast? with
    | none =>
      have hdl_nil : (cs.map Prod.fst).dropLast = [] :=
        List.getLast?_eq_none_iff.mp hpen
      have hkl : (cs.map Prod.fst).length = l.len := by
        rw [List.length_map, hlen]
      have hlen1 : l.len = 1 := by
        have h1 := congrArg List.length hdl_nil
        rw [List.length_dropLast, hkl] at h1
        simp at h1
        omega
      have hwalk' : walkLast l.heap l.len hd none = some (t, none) := by
        rw [hwalk, hpen]
        rfl
      have hcs1 : cs = [e] := by
        cases cs with
        | nil => exact absurd rfl hne
        | cons a u =>
          cases u with
          | nil =>
            rw [show ([a] : List (Ptr × Node α)).getLast? = some a from rfl]
              at hge
            rw [Option.some_inj.mp hge]
          | cons b v =>
            rw [List.length_cons, List.length_cons] at hlen
            omega
      refine ⟨some e.2.element,
        { heap := l.heap.free t, head := none, tail := none,
          len := l.len - 1, fresh := l.fresh },
        popBack_eq_of_pen_none htl hlk_t' hhd hwalk',
        ⟨?_, [], ?_, rfl, List.nodup_nil⟩, rfl,
        fun h0 => absurd h0 (by omega), ?_, fun _ => ⟨rfl, rfl⟩,
        fun h2 => absurd h2 (by omega)⟩
      · intro e' he'
        exact hb e' (Heap.mem_of_mem_free he')
      · show chainSeg _ (l.len - 1) none none = some []
        rw [hlen1]
        exact chainSeg_self _ none
      · intro es hes
        rw [elems, hc, Option.map_some', hcs1] at hes
        rw [← Option.some_inj.mp hes]
        refine ⟨rfl, ?_⟩
        show elems _ = _
        rw [elems]
        show (chainSeg _ (l.len - 1) none none).map _ = _
        rw [hlen1]
        rw [show chainSeg (l.heap.free t) 0 none none = some [] from
          chainSeg_self _ none, Option.map_some']
        rfl
    | some pp =>
      have hdl_ne : (cs.map Prod.fst).dropLast ≠ [] := by
        intro hnil
        rw [hnil] at hpen
        exact Option.noConfusion hpen
      have hkl : (cs.map Prod.fst).length = l.len := by
        rw [List.length_map, hlen]
      have hlen2 : 2 ≤ l.len := by
        have h1 := List.length_pos.mpr hdl_ne
        rw [List.length_dropLast, hkl] at h1
        omega
      have hwalk' : walkLast l.heap l.len hd none = some (t, some pp) := by
        rw [hwalk, hpen]
        rfl
      have hket : cs.dropLast.map Prod.fst = (cs.map Prod.fst).dropLast :=
        List.map_dropLast _ _
      have hpen' : (cs.dropLast.map Prod.fst).getLast? = some pp := by
        rw [hket]
        exact hpen
      have hgl2 : ∃ ep, cs.dropLast.getLast? = some ep ∧ ep.1 = pp := by
        have hpen2 := hpen'
        rw [List.getLast?_map] at hpen2
        cases hgep : cs.dropLast.getLast? with
        | none => rw [hgep] at hpen2; exact Option.noConfusion hpen2
        | some ep =>
          rw [hgep, Option.map_some'] at hpen2
          exact ⟨ep, rfl, Option.some_inj.mp hpen2⟩
      obtain ⟨ep, hgep, hepp⟩ := hgl2
      obtain ⟨hlk_p, hnx_p, hseg2⟩ := chainSeg_last hseg hgep
      have hlk_p' : l.heap.lookup pp = some ep.2 := hepp ▸ hlk_p
      have hppt : pp ≠ t := by
        intro habs
        have hppmem : pp ∈ (cs.map Prod.fst).dropLast :=
          mem_of_getLast?_eq hpen
        rw [habs] at hppmem
        exact not_mem_dropLast_of_nodup hnd hgk hppmem
      have hlk2 : Heap.lookup ((l.heap.setNext pp none).free t) pp =
          some { ep.2 with next := none } := by
        rw [Heap.lookup_free, if_neg hppt, Heap.lookup_setNext, hlk_p',
          Option.map_some', if_pos rfl]
      have hkeys2 : (cs.dropLast.map Prod.fst).Nodup := by
        rw [hket]
        exact List.Nodup.sublist (List.dropLast_sublist _) hnd
      have hnot_pp : ∀ e' ∈ cs.dropLast.dropLast, e'.1 ≠ pp := by
        intro e' he' habs
        have hmm : pp ∈ (cs.dropLast.map Prod.fst).dropLast := by
          rw [← List.map_dropLast]
          exact List.mem_map.mpr ⟨e', he', habs⟩
        exact not_mem_dropLast_of_nodup hkeys2 hpen' hmm
      have hnot_t2 : ∀ e' ∈ cs.dropLast.dropLast, e'.1 ≠ t := by
        intro e' he' habs
        have hmm : t ∈ (cs.map Prod.fst).dropLast := by
          rw [← hket]
          exact List.mem_map.mpr
            ⟨e', (List.dropLast_sublist _).subset he', habs⟩
        exact not_mem_dropLast_of_nodup hnd hgk hmm
      have hseg2' : chainSeg l.heap (l.len - 1 - 1) l.head (some pp) =
          some cs.dropLast.dropLast := by
        rw [← hepp]
        exact hseg2
      have hS1 : chainSeg ((l.heap.setNext pp none).free t)
          (l.len - 1 - 1) l.head (some pp) =
          some cs.dropLast.dropLast :=
        chainSeg_frame_free (chainSeg_frame_setNext hseg2' hnot_pp) hnot_t2
      have hS2 := chainSeg_one hlk2
      have happ := chainSeg_append hS1 hS2
      rw [show l.len - 1 - 1 + 1 = l.len - 1 from by omega] at happ
      have hkeys_eq : cs.dropLast.dropLast.map Prod.fst ++ [pp] =
          cs.dropLast.map Prod.fst := by
        have h1 := map_dropLast_concat hgep Prod.fst
        rw [hepp] at h1
        exact h1
      refine ⟨some e.2.element,
        { heap := (l.heap.setNext pp none).free t, head := l.head,
          tail := some pp, len := l.len - 1, fresh := l.fresh },
        popBack_eq_of_pen_some htl hlk_t' hhd hwalk',
        ⟨?_, cs.dropLast.dropLast ++ [(pp, { ep.2 with next := none })],
          ?_, ?_, ?_⟩, rfl,
        fun h0 => absurd h0 (by omega), ?_,
        fun h1 => absurd h1 (by omega), fun _ => ⟨rfl, ?_⟩⟩
      · intro e' he'
        obtain ⟨e'', he'', heq⟩ :=
          Heap.fst_mem_setNext (Heap.mem_of_mem_free he')
        rw [heq]
        exact hb e'' he''
      · exact happ
      · show some pp = _
        simp only [List.map_append, List.map_cons, List.map_nil]
        rw [List.getLast?_concat]
      · simp only [List.map_append, List.map_cons, List.map_nil]
        show (cs.dropLast.dropLast.map Prod.fst ++ [pp]).Nodup
        rw [hkeys_eq]
        exact hkeys2
      · intro es hes
        rw [elems, hc, Option.map_some'] at hes
        rw [← Option.some_inj.mp hes]
        constructor
        · rw [List.getLast?_map, hge, Option.map_some']
        · show elems _ = _
          rw [elems]
          show (chainSeg _ (l.len - 1) l.head none).map _ = _
          rw [happ, Option.map_some']
          simp only [List.map_append, List.map_cons, List.map_nil]
          have h1 := map_dropLast_concat hgep (fun e' => e'.2.element)
          rw [show ({ ep.2 with next := none } : Node α).element =
            ep.2.element from rfl, h1, List.map_dropLast]
      · refine ⟨pp, cs.map Prod.fst, rfl, ?_, hpen, ?_⟩
        · rw [ptrs, hc, Option.map_some']
        · rw [hlk2, Option.map_some']

theorem lookup_foldl_free (ps : List Ptr) (h : Heap α) (r : Ptr) :
    Heap.lookup (ps.foldl Heap.free h) r =
      if r ∈ ps then none else h.lookup r := by
  induction ps generalizing h with
  | nil => simp
  | cons p ps ih =>
    rw [List.foldl_cons, ih, Heap.lookup_free]
    by_cases hrp : r = p
    · subst hrp
      simp
    · by_cases hrps : r ∈ ps
      · simp [hrps]
      · simp [hrps, hrp]

theorem mem_of_mem_foldl_free {e : Ptr × Node α} :
    ∀ {ps : List Ptr} {h : Heap α}, e ∈ ps.foldl Heap.free h → e ∈ h := by
  intro ps
  induction ps with
  | nil =>
    intro h he
    exact he
  | cons p ps ih =>
    intro h he
    rw [List.foldl_cons] at he
    exact Heap.mem_of_mem_free (ih he)

/-- The `Drop` loop visits exactly the addresses of the chain, in order,
and frees each of them. -/
theorem dropLoop_spec :
    ∀ {n fuel : Nat} (h : Heap α) {p : Option Ptr}
      {cs : List (Ptr × Node α)},
      chain h n p = some cs → (cs.map Prod.fst).Nodup → n ≤ fuel →
      dropLoop h fuel p =
        (cs.map Prod.fst, (cs.map Prod.fst).foldl Heap.free h) := by
  intro n
  induction n with
  | zero =>
    intro fuel h p cs hc _ _
    obtain ⟨hp, hcs⟩ := chain_zero_inv hc
    subst hp
    rw [hcs]
    cases fuel <;> rfl
  | succ m ih =>
    intro fuel h p cs hc hnd hle
    obtain ⟨r, nd, cs', hp, hl, hcs', hval⟩ := chainSeg_succ_inv hc
    subst hp
    subst hval
    obtain ⟨f, rfl⟩ : ∃ f, fuel = f + 1 := ⟨fuel - 1, by omega⟩
    have hnd' : (cs'.map Prod.fst).Nodup := by
      rw [List.map_cons] at hnd
      exact hnd.of_cons
    have hrnot : r ∉ cs'.map Prod.fst := by
      rw [List.map_cons] at hnd
      exact (List.nodup_cons.mp hnd).1
    have hfr : chainSeg (h.free r) m nd.next none = some cs' := by
      refine chainSeg_frame_free hcs' ?_
      intro e' he' habs
      exact hrnot (List.mem_map.mpr ⟨e', he', habs⟩)
    have hrec := @ih f (h.free r) nd.next cs' hfr hnd' (by omega)
    show (match h.lookup r with
      | none => ([], h)
      | some nd =>
        let w := dropLoop (h.free r) f nd.next
        (r :: w.1, w.2)) = _
    rw [hl]
    show (r :: (dropLoop (h.free r) f nd.next).1,
      (dropLoop (h.free r) f nd.next).2) = _
    rw [hrec, List.map_cons, List.foldl_cons]

theorem or_getLast?_cons {β : Type} (a : β) (l : List β) (b : Option β) :
    ((a :: l).getLast?).or b = (l.getLast?).or (some a) := by
  cases l with
  | nil => simp
  | cons c u =>
    rw [List.getLast?_cons_cons]
    obtain ⟨z, hz⟩ : ∃ z, (c :: u).getLast? = some z :=
      ⟨(c :: u).getLast (List.cons_ne_nil c u),
        List.getLast?_eq_getLast _ _⟩
    rw [hz]
    rfl

/-- The `insert` walk is correct: on a segment of length `m` from `p` to
`q`, walking `m` steps stops with `after = q` and `before` the address of
the last segment node (or the initial accumulator when `m = 0`). -/
theorem walkTo_spec {h : Heap α} :
    ∀ {m : Nat} {p q : Option Ptr} {ds : List (Ptr × Node α)}
      (b : Option Ptr),
      chainSeg h m p q = some ds →
      walkTo h m b p = some (((ds.map Prod.fst).getLast?).or b, q) := by
  intro m
  induction m with
  | zero =>
    intro p q ds b hc
    obtain ⟨hpq, hds⟩ := chainSeg_zero_inv hc
    subst hpq
    rw [hds]
    simp [walkTo]
  | succ k ih =>
    intro p q ds b hc
    obtain ⟨r, nd, ds', hp, hl, hds', hval⟩ := chainSeg_succ_inv hc
    subst hp
    subst hval
    simp only [walkTo, hl]
    rw [ih (some r) hds', List.map_cons, or_getLast?_cons]

/-- The `insert` walk panics (`unwrap` of none) when asked to walk further
than the chain length. -/
theorem walkTo_none {h : Heap α} :
    ∀ {n : Nat} {p : Option Ptr} {cs : List (Ptr × Node α)} {i : Nat}
      (b : Option Ptr),
      chainSeg h n p none = some cs → n < i → walkTo h i b p = none := by
  intro n
  induction n with
  | zero =>
    intro p cs i b hc hlt
    obtain ⟨hp, _⟩ := chainSeg_zero_inv hc
    subst hp
    obtain ⟨j, rfl⟩ : ∃ j, i = j + 1 := ⟨i - 1, by omega⟩
    rfl
  | succ m ih =>
    intro p cs i b hc hlt
    obtain ⟨r, nd, cs', hp, hl, hcs', hval⟩ := chainSeg_succ_inv hc
    subst hp
    obtain ⟨j, rfl⟩ : ∃ j, i = j + 1 := ⟨i - 1, by omega⟩
    simp only [walkTo, hl]
    exact ih (some r) hcs' (by omega)

/-- `clear` specification: the invariant is preserved; the drop loop frees
exactly the chain's addresses (each exactly once, since they are pairwise
distinct under the invariant) and no others. -/
theorem clear_spec {l : LinkedList α} (hInv : Inv l) :
    Inv l.clear ∧
    (∀ cs, chain l.heap l.len l.head = some cs →
      (dropLoop l.heap l.len l.head).1 = cs.map Prod.fst ∧
      (∀ r : Ptr, l.clear.heap.lookup r =
        if r ∈ cs.map Prod.fst then none else l.heap.lookup r)) := by
  obtain ⟨hb, cs, hc, ht, hnd⟩ := hInv
  have hdrop := dropLoop_spec l.heap hc hnd (Nat.le_refl l.len)
  constructor
  · refine ⟨?_, [], chainSeg_self _ none, rfl, List.nodup_nil⟩
    intro e he
    show e.1 < l.fresh
    have hmem : e ∈ l.heap := by
      have he' : e ∈ (dropLoop l.heap l.len l.head).2 := he
      rw [hdrop] at he'
      exact mem_of_mem_foldl_free he'
    exact hb e hmem
  · intro cs2 hc2
    rw [hc] at hc2
    obtain rfl : cs = cs2 := Option.some_inj.mp hc2
    constructor
    · rw [hdrop]
    · intro r
      show ((dropLoop l.heap l.len l.head).2).lookup r = _
      rw [hdrop]
      exact lookup_foldl_free (cs.map Prod.fst) l.heap r

theorem insertAt_eq_of_walk_before_none {l : LinkedList α} {i : Nat} {x : α}
    {after : Option Ptr}
    (hw : walkTo l.heap i none l.head = some (none, after)) :
    l.insertAt i x = some
      { heap := (l.fresh, ⟨x, after⟩) :: l.heap, head := some l.fresh,
        tail := if after.isNone then some l.fresh else l.tail,
        len := l.len + 1, fresh := l.fresh + 1 } := by
  simp only [insertAt, hw]

theorem insertAt_eq_of_walk_before_some {l : LinkedList α} {i : Nat} {x : α}
    {b : Ptr} {after : Option Ptr}
    (hw : walkTo l.heap i none l.head = some (some b, after)) :
    l.insertAt i x = some
      { heap := Heap.setNext ((l.fresh, ⟨x, after⟩) :: l.heap) b
          (some l.fresh),
        head := l.head,
        tail := if after.isNone then some l.fresh else l.tail,
        len := l.len + 1, fresh := l.fresh + 1 } := by
  simp only [insertAt, hw]

/-- `insert(0, x)` produces exactly the same state as `push_front(x)`. -/
theorem insertAt_zero {l : LinkedList α} (hInv : Inv l) (x : α) :
    l.insertAt 0 x = some (l.pushFront x) := by
  have hw : walkTo l.heap 0 none l.head = some (none, l.head) := rfl
  rw [insertAt_eq_of_walk_before_none hw]
  have h1 : l.head = none ↔ l.tail = none :=
    Iff.trans (Inv.len_zero_iff_head hInv).symm (Inv.len_zero_iff_tail hInv)
  have htaileq : (if l.head.isNone then some l.fresh else l.tail) =
      (if l.tail.isNone then some l.fresh else l.tail) := by
    cases hh : l.head with
    | none =>
      rw [h1.mp hh]
    | some r =>
      have htl : l.tail ≠ none := by
        intro habs
        rw [h1.mpr habs] at hh
        exact Option.noConfusion hh
      cases htl' : l.tail with
      | none => exact absurd htl' htl
      | some s => rfl
  rw [htaileq]
  rfl

/-- `insert(len, x)` produces exactly the same state as `push_back(x)`. -/
theorem insertAt_len {l : LinkedList α} (hInv : Inv l) (x : α) :
    l.insertAt l.len x = some (l.pushBack x) := by
  obtain ⟨hb, cs, hc, ht, hnd⟩ := hInv
  have hwalk := walkTo_spec none hc
  have hor : ∀ o : Option Ptr, o.or none = o := fun o => by cases o <;> rfl
  rw [hor, ← ht] at hwalk
  cases htl : l.tail with
  | none =>
    rw [htl] at hwalk
    rw [insertAt_eq_of_walk_before_none hwalk,
      pushBack_eq_of_tail_none htl]
    rfl
  | some t =>
    rw [htl] at hwalk
    rw [insertAt_eq_of_walk_before_some hwalk,
      pushBack_eq_of_tail_some htl]
    rfl

/-- `insert(i, x)` with `i > len` panics (the `unwrap` of a none `after`
inside the walk). -/
theorem insertAt_panic {l : LinkedList α} (hInv : Inv l) {i : Nat}
    (hi : l.len < i) (x : α) : l.insertAt i x = none := by
  obtain ⟨hb, cs, hc, ht, hnd⟩ := hInv
  simp only [insertAt, walkTo_none none hc hi]

/-- `insert` specification for a valid index: the call succeeds, preserves
the invariant, grows the length by one, splices `x` into the element
sequence at position `i`, and when `i = len` the new node becomes `tail`. -/
theorem insertAt_spec {l : LinkedList α} (hInv : Inv l) {i : Nat}
    (hi : i ≤ l.len) (x : α) :
    ∃ l', l.insertAt i x = some l' ∧ Inv l' ∧ l'.len = l.len + 1 ∧
      (∀ es, elems l = some es →
        elems l' = some (es.take i ++ x :: es.drop i)) ∧
      (i = l.len → l'.tail = some l.fresh) := by
  rcases Nat.eq_zero_or_pos i with hi0 | hipos
  · subst hi0
    refine ⟨l.pushFront x, insertAt_zero hInv x, ?_, rfl, ?_, ?_⟩
    · exact (pushFront_spec hInv x).1
    · intro es hes
      rw [(pushFront_spec hInv x).2.2, hes, Option.map_some']
      rfl
    · intro h0
      have htl : l.tail = none := (Inv.len_zero_iff_tail hInv).mp h0.symm
      show (if l.tail.isNone then some l.fresh else l.tail) = some l.fresh
      rw [htl]
      rfl
  · obtain ⟨hb, cs, hc, ht, hnd⟩ := hInv
    have hkeys : ∀ e ∈ cs, e.1 < l.fresh := chain_mem_lt hb hc
    have hc' : chainSeg l.heap (i + (l.len - i)) l.head none = some cs := by
      rw [show i + (l.len - i) = l.len from by omega]
      exact hc
    obtain ⟨q1, h1, h2⟩ := chainSeg_split hc'
    have htlen : (cs.take i).length = i := chainSeg_length h1
    have htane : cs.take i ≠ [] := by
      intro hnil
      rw [hnil] at htlen
      simp at htlen
      omega
    obtain ⟨eb, hgeb⟩ : ∃ eb, (cs.take i).getLast? = some eb :=
      ⟨(cs.take i).getLast htane, List.getLast?_eq_getLast _ _⟩
    have hwalk := walkTo_spec none h1
    have hbefore : (((cs.take i).map Prod.fst).getLast?).or none =
        some eb.1 := by
      rw [List.getLast?_map, hgeb, Option.map_some']
      rfl
    rw [hbefore] at hwalk
    obtain ⟨hlk_b, hnx_b, hsegb⟩ := chainSeg_last h1 hgeb
    have hbmem : eb ∈ cs := (List.take_sublist i cs).subset
      (mem_of_getLast?_eq hgeb)
    have hbf : eb.1 < l.fresh := hkeys eb hbmem
    have hbf' : eb.1 ≠ l.fresh := Nat.ne_of_lt hbf
    have hlk_b2 : Heap.lookup
        (Heap.setNext ((l.fresh, ⟨x, q1⟩) :: l.heap) eb.1 (some l.fresh))
        eb.1 = some { eb.2 with next := some l.fresh } := by
      rw [Heap.lookup_setNext, Heap.lookup_cons,
        if_neg (fun hh => hbf' hh.symm), hlk_b, Option.map_some',
        if_pos rfl]
    have hlk_f : Heap.lookup
        (Heap.setNext ((l.fresh, ⟨x, q1⟩) :: l.heap) eb.1 (some l.fresh))
        l.fresh = some ⟨x, q1⟩ := by
      rw [Heap.lookup_setNext, Heap.lookup_cons, if_pos rfl,
        Option.map_some', if_neg (fun hh => hbf' hh.symm)]
    have hkeys_split : cs.map Prod.fst =
        (cs.take i).map Prod.fst ++ (cs.drop i).map Prod.fst := by
      rw [← List.map_append, List.take_append_drop]
    have hnd_split := hkeys_split ▸ hnd
    obtain ⟨hnd_take, hnd_drop, hdisj⟩ := List.nodup_append.mp hnd_split
    have hnot_b_dl : ∀ e' ∈ (cs.take i).dropLast, e'.1 ≠ eb.1 := by
      intro e' he' habs
      have hmm : eb.1 ∈ ((cs.take i).map Prod.fst).dropLast := by
        rw [← List.map_dropLast]
        exact List.mem_map.mpr ⟨e', he', habs⟩
      have hgk2 : ((cs.take i).map Prod.fst).getLast? = some eb.1 := by
        rw [List.getLast?_map, hgeb, Option.map_some']
      exact not_mem_dropLast_of_nodup hnd_take hgk2 hmm
    have hnot_f_dl : ∀ e' ∈ (cs.take i).dropLast, e'.1 ≠ l.fresh := by
      intro e' he'
      exact Nat.ne_of_lt
        (hkeys e' ((List.take_sublist i cs).subset
          ((List.dropLast_sublist _).subset he')))
    have hS1 : chainSeg
        (Heap.setNext ((l.fresh, ⟨x, q1⟩) :: l.heap) eb.1 (some l.fresh))
        (i - 1) l.head (some eb.1) = some (cs.take i).dropLast :=
      chainSeg_frame_setNext
        (chainSeg_frame_alloc hsegb hnot_f_dl) hnot_b_dl
    have hS2 := chainSeg_one hlk_b2
    have hS3 := chainSeg_one hlk_f
    have hnot_b_dr : ∀ e' ∈ cs.drop i, e'.1 ≠ eb.1 := by
      intro e' he' habs
      refine hdisj (a := eb.1) ?_ ?_
      · rw [List.getLast?_map, hgeb, Option.map_some'] at hbefore
        exact mem_of_getLast?_eq (by
          rw [List.getLast?_map, hgeb, Option.map_some'])
      · exact List.mem_map.mpr ⟨e', he', habs⟩
    have hnot_f_dr : ∀ e' ∈ cs.drop i, e'.1 ≠ l.fresh := by
      intro e' he'
      exact Nat.ne_of_lt (hkeys e' ((List.drop_sublist i cs).subset he'))
    have hS4 : chainSeg
        (Heap.setNext ((l.fresh, ⟨x, q1⟩) :: l.heap) eb.1 (some l.fresh))
        (l.len - i) q1 none = some (cs.drop i) :=
      chainSeg_frame_setNext
        (chainSeg_frame_alloc h2 hnot_f_dr) hnot_b_dr
    have happ := chainSeg_append (chainSeg_append (chainSeg_append hS1 hS2)
      hS3) hS4
    rw [show i - 1 + 1 + 1 + (l.len - i) = l.len + 1 from by omega] at happ
    have htake_eq : (cs.take i).dropLast.map Prod.fst ++ [eb.1] =
        (cs.take i).map Prod.fst := map_dropLast_concat hgeb Prod.fst
    refine ⟨_, insertAt_eq_of_walk_before_some hwalk, ⟨?_,
      (cs.take i).dropLast ++ [(eb.1, { eb.2 with next := some l.fresh })] ++
        [(l.fresh, ⟨x, q1⟩)] ++ cs.drop i, ?_, ?_, ?_⟩, rfl, ?_, ?_⟩
    · intro e' he'
      show e'.1 < l.fresh + 1
      obtain ⟨e'', he'', heq⟩ := Heap.fst_mem_setNext he'
      rw [heq]
      rcases List.mem_cons.mp he'' with hx1 | hx1
      · rw [hx1]
        exact Nat.lt_succ_self _
      · exact Nat.lt_succ_of_lt (hb e'' hx1)
    · exact happ
    · show (if q1.isNone then some l.fresh else l.tail) = _
      simp only [List.map_append, List.map_cons, List.map_nil]
      rw [htake_eq]
      cases hq1 : q1 with
      | none =>
        have hdr0 : l.len - i = 0 := by
          rcases Nat.eq_zero_or_pos (l.len - i) with hz | hp
          · exact hz
          · obtain ⟨m, hm⟩ : ∃ m, l.len - i = m + 1 :=
              ⟨l.len - i - 1, by omega⟩
            rw [hm, hq1] at h2
            exact absurd h2 (by simp)
        have hdrop_nil : cs.drop i = [] := by
          have := chainSeg_length h2
          rw [hdr0] at this
          exact List.length_eq_zero.mp this
        rw [hdrop_nil]
        show some l.fresh = _
        rw [show List.map Prod.fst ([] : Heap α) = [] from rfl,
          List.append_nil, List.getLast?_concat]
      | some z =>
        have hdrop_ne : cs.drop i ≠ [] := by
          intro hnil
          rw [hnil] at h2
          have hlz := chainSeg_length h2
          simp at hlz
          rw [← hlz] at h2
          obtain ⟨habs, _⟩ := chainSeg_zero_inv h2
          rw [hq1] at habs
          exact Option.noConfusion habs
        have hkdr_ne : (cs.drop i).map Prod.fst ≠ [] := by
          cases hx : cs.drop i with
          | nil => exact absurd hx hdrop_ne
          | cons a u => simp
        show l.tail = _
        rw [List.getLast?_append_of_ne_nil _ hkdr_ne]
        rw [ht, hkeys_split,
          List.getLast?_append_of_ne_nil _ hkdr_ne]
    · simp only [List.map_append, List.map_cons, List.map_nil]
      rw [htake_eq]
      rw [List.nodup_append, List.nodup_append]
      refine ⟨⟨hnd_take, List.nodup_singleton _, ?_⟩, hnd_drop, ?_⟩
      · intro a ha ha'
        rw [List.mem_singleton.mp ha'] at ha
        obtain ⟨e', he', heq⟩ := List.mem_map.mp ha
        exact absurd heq
          (Nat.ne_of_lt (hkeys e' ((List.take_sublist i cs).subset he')))
      · intro a ha ha'
        rcases List.mem_append.mp ha with h4 | h4
        · obtain ⟨e', he', heq⟩ := List.mem_map.mp h4
          obtain ⟨e2, he2, heq2⟩ := List.mem_map.mp ha'
          exact hdisj h4 ha'
        · rw [List.mem_singleton.mp h4] at ha'
          obtain ⟨e', he', heq⟩ := List.mem_map.mp ha'
          exact absurd heq
            (Nat.ne_of_lt (hkeys e' ((List.drop_sublist i cs).subset he')))
    · intro es hes
      rw [elems, hc, Option.map_some'] at hes
      obtain rfl : List.map (fun e => e.2.element) cs = es :=
        Option.some_inj.mp hes
      show elems _ = _
      rw [elems]
      show (chainSeg _ (l.len + 1) l.head none).map _ = _
      rw [show (chainSeg
          (Heap.setNext ((l.fresh, ⟨x, q1⟩) :: l.heap) eb.1 (some l.fresh))
          (l.len + 1) l.head none) = some
          ((cs.take i).dropLast ++
            [(eb.1, { eb.2 with next := some l.fresh })] ++
            [(l.fresh, ⟨x, q1⟩)] ++ cs.drop i) from happ, Option.map_some']
      simp only [List.map_append, List.map_cons, List.map_nil]
      have helems_take := map_dropLast_concat hgeb
        (fun e' => e'.2.element)
      rw [show ({ eb.2 with next := some l.fresh } : Node α).element =
        eb.2.element from rfl, helems_take, List.map_take, List.map_drop,
        List.append_assoc]
      rfl
    · intro hil
      show (if q1.isNone then some l.fresh else l.tail) = some l.fresh
      have hdr0 : l.len - i = 0 := by omega
      rw [hdr0] at h2
      obtain ⟨hq1, _⟩ := chainSeg_zero_inv h2
      rw [hq1]
      rfl

/-- Iterated `push_back` appends the pushed elements in order. -/
theorem pushBackAll_spec :
    ∀ {xs : List α} {l : LinkedList α}, Inv l →
      Inv (l.pushBackAll xs) ∧
      (∀ es, elems l = some es → elems (l.pushBackAll xs) =
        some (es ++ xs)) := by
  intro xs
  induction xs with
  | nil =>
    intro l hInv
    exact ⟨hInv, fun es hes => by rw [show l.pushBackAll [] = l from rfl,
      hes, List.append_nil]⟩
  | cons x xs ih =>
    intro l hInv
    obtain ⟨hInv1, helems1, _, _⟩ := pushBack_spec hInv x
    obtain ⟨hInv2, helems2⟩ := ih hInv1
    refine ⟨hInv2, ?_⟩
    intro es hes
    show elems ((l.pushBack x).pushBackAll xs) = _
    rw [helems2 (es ++ [x]) (by rw [helems1, hes, Option.map_some']),
      List.append_assoc]
    rfl

/-- Iterated `push_front` prepends the pushed elements in reverse order. -/
theorem pushFrontAll_spec :
    ∀ {xs : List α} {l : LinkedList α}, Inv l →
      Inv (l.pushFrontAll xs) ∧
      (∀ es, elems l = some es → elems (l.pushFrontAll xs) =
        some (xs.reverse ++ es)) := by
  intro xs
  induction xs with
  | nil =>
    intro l hInv
    exact ⟨hInv, fun es hes => by
      rw [show l.pushFrontAll [] = l from rfl, hes]
      rfl⟩
  | cons x xs ih =>
    intro l hInv
    obtain ⟨hInv1, _, helems1⟩ := pushFront_spec hInv x
    obtain ⟨hInv2, helems2⟩ := ih hInv1
    refine ⟨hInv2, ?_⟩
    intro es hes
    show elems ((l.pushFront x).pushFrontAll xs) = _
    rw [helems2 (x :: es) (by rw [helems1, hes, Option.map_some']),
      List.reverse_cons, List.append_assoc]
    rfl

/-- Popping `length + 1` times from the front returns every element in
order, each wrapped in some, followed by a none from the final pop on the
emptied list. -/
theorem popFrontN_spec :
    ∀ {es : List α} {l : LinkedList α}, Inv l → elems l = some es →
      ∃ l', l.popFrontN (es.length + 1) =
        some (es.map some ++ [none], l') ∧ Inv l' := by
  intro es
  induction es with
  | nil =>
    intro l hInv hes
    have hlen0 : l.len = 0 := by
      obtain ⟨es2, hes2, hlen2⟩ := hInv.elems_some
      rw [hes2] at hes
      obtain rfl : es2 = [] := Option.some_inj.mp hes
      rw [← hlen2]
      rfl
    have hh : l.head = none := (Inv.len_zero_iff_head hInv).mp hlen0
    refine ⟨l, ?_, hInv⟩
    show (match l.popFront with
      | none => none
      | some (r, l') => (l'.popFrontN 0).map
          (fun (w : List (Option α) × LinkedList α) => (r :: w.1, w.2))) = _
    rw [popFront_eq_of_head_none hh]
    rfl
  | cons x es ih =>
    intro l hInv hes
    obtain ⟨out, l1, hpop, hInv1, _, _, houts⟩ := popFront_spec hInv
    obtain ⟨hout, helems1⟩ := houts (x :: es) hes
    obtain ⟨l', hrec, hInv'⟩ := ih hInv1 helems1
    refine ⟨l', ?_, hInv'⟩
    show (match l.popFront with
      | none => none
      | some (r, l1) =>
        (l1.popFrontN (es.length + 1)).map
          (fun (w : List (Option α) × LinkedList α) => (r :: w.1, w.2))) = _
    rw [hpop]
    show (l1.popFrontN (es.length + 1)).map _ = _
    rw [hrec, Option.map_some', hout]
    rfl

/-- Splicing an element into a list at position `i`: positional facts. -/
theorem splice_get {β : Type} (es : List β) (i : Nat) (x : β)
    (hi : i ≤ es.length) :
    (es.take i ++ x :: es.drop i).get? i = some x ∧
    (∀ j, j < i → (es.take i ++ x :: es.drop i).get? j = es.get? j) ∧
    (∀ j, i ≤ j → (es.take i ++ x :: es.drop i).get? (j + 1) = es.get? j)
    := by
  have hlt : (es.take i).length = i := by
    rw [List.length_take]
    omega
  refine ⟨?_, ?_, ?_⟩
  · rw [List.get?_append_right (by omega), hlt]
    simp
  · intro j hj
    rw [List.get?_append (by omega), List.get?_take hj]
  · intro j hj
    rw [List.get?_append_right (by omega), hlt,
      show j + 1 - i = (j - i) + 1 from by omega]
    show (es.drop i).get? (j - i) = _
    rw [List.get?_drop, show i + (j - i) = j from by omega]

/-- A concrete two-element list `[1, 2]` used to exercise the theorems. -/
theorem Inv_ex2 :
    Inv (((new : LinkedList Nat).pushBack 1).pushBack 2) :=
  (pushBack_spec (pushBack_spec Inv_new 1).1 2).1

theorem elems_ex2 :
    elems (((new : LinkedList Nat).pushBack 1).pushBack 2) =
      some [1, 2] := by
  rfl

theorem chain_ex2 :
    chain (((new : LinkedList Nat).pushBack 1).pushBack 2).heap
      (((new : LinkedList Nat).pushBack 1).pushBack 2).len
      (((new : LinkedList Nat).pushBack 1).pushBack 2).head =
      some [(0, ⟨1, some 1⟩), (1, ⟨2, none⟩)] := by
  rfl

end LinkedList

/-!
## Claim theorems
-/

open LinkedList

/-- C1: every public operation (`new`, `push_front`, `push_back`,
`pop_front`, `pop_back`, `insert`, `clear`) preserves the structural
invariant: `len = 0` iff `head` is none iff `tail` is none, and following
`next` from `head` exactly `len` times visits `len` nodes, ends at `tail`,
and then reaches none (so the stored `len` equals the number of linked
nodes and the tail node's `next` is none). -/
theorem C1_operations_preserve_invariant (α : Type) :
    Inv (new : LinkedList α) ∧
    (∀ l : LinkedList α, Inv l →
      ((l.len = 0 ↔ l.head = none) ∧ (l.len = 0 ↔ l.tail = none) ∧
        ∃ cs, chain l.heap l.len l.head = some cs ∧ cs.length = l.len ∧
          l.tail = (cs.map Prod.fst).getLast?)) ∧
    (∀ (l : LinkedList α) (x : α), Inv l → Inv (l.pushFront x)) ∧
    (∀ (l : LinkedList α) (x : α), Inv l → Inv (l.pushBack x)) ∧
    (∀ l : LinkedList α, Inv l →
      ∃ out l', l.popFront = some (out, l') ∧ Inv l') ∧
    (∀ l : LinkedList α, Inv l →
      ∃ out l', l.popBack = some (out, l') ∧ Inv l') ∧
    (∀ l : LinkedList α, Inv l → Inv l.clear) ∧
    (∀ (l : LinkedList α) (i : Nat) (x : α), Inv l → i ≤ l.len →
      ∃ l', l.insertAt i x = some l' ∧ Inv l') := by
  refine ⟨Inv_new, ?_, ?_, ?_, ?_, ?_, ?_, ?_⟩
  · intro l hInv
    refine ⟨hInv.len_zero_iff_head, hInv.len_zero_iff_tail, ?_⟩
    obtain ⟨_, cs, hc, ht, _⟩ := hInv
    exact ⟨cs, hc, chainSeg_length hc, ht⟩
  · intro l x hInv
    exact (pushFront_spec hInv x).1
  · intro l x hInv
    exact (pushBack_spec hInv x).1
  · intro l hInv
    obtain ⟨out, l', hpop, hInv', _⟩ := popFront_spec hInv
    exact ⟨out, l', hpop, hInv'⟩
  · intro l hInv
    obtain ⟨out, l', hpop, hInv', _⟩ := popBack_spec hInv
    exact ⟨out, l', hpop, hInv'⟩
  · intro l hInv
    exact (clear_spec hInv).1
  · intro l i x hInv hi
    obtain ⟨l', hins, hInv', _⟩ := insertAt_spec hInv hi x
    exact ⟨l', hins, hInv'⟩

/-- Witness for C1 at concrete inputs. -/
theorem C1_operations_preserve_invariant_witness :
    Inv ((new : LinkedList Nat).pushFront 5) ∧
    Inv (((new : LinkedList Nat).pushBack 1).pushBack 2).clear :=
  ⟨(C1_operations_preserve_invariant Nat).2.2.1 new 5 Inv_new,
   (C1_operations_preserve_invariant Nat).2.2.2.2.2.2.1 _ Inv_ex2⟩

/-- C2: `pop_back` on an empty list returns none and leaves the state
unchanged; on a non-empty list it removes and returns the last element,
decrements `len`, leaves the preceding elements and their order unchanged;
with exactly one element it clears both `head` and `tail`; with at least
two, it keeps `head`, locates the second-to-last node of the chain walked
from `head`, sets that predecessor's `next` to none and makes it the new
`tail`. -/
theorem C2_pop_back_spec (α : Type) :
    ∀ l : LinkedList α, Inv l →
      (l.len = 0 → l.popBack = some (none, l)) ∧
      (∀ es, elems l = some es → es ≠ [] →
        ∃ l', l.popBack = some (es.getLast?, l') ∧ Inv l' ∧
          l'.len = l.len - 1 ∧ elems l' = some es.dropLast ∧
          (l.len = 1 → l'.head = none ∧ l'.tail = none) ∧
          (2 ≤ l.len → l'.head = l.head ∧
            ∃ pp ks, ptrs l = some ks ∧ ks.dropLast.getLast? = some pp ∧
              l'.tail = some pp ∧
              (l'.heap.lookup pp).map Node.next =
                some (none : Option Ptr))) := by
  intro l hInv
  obtain ⟨out, l', hpop, hInv', hlen, hempty, helems, h1, h2⟩ :=
    popBack_spec hInv
  constructor
  · intro h0
    obtain ⟨hout, hl'⟩ := hempty h0
    rw [hout, hl'] at hpop
    exact hpop
  · intro es hes hne
    obtain ⟨hout, helems'⟩ := helems es hes
    refine ⟨l', by rw [← hout]; exact hpop, hInv', hlen, helems', h1, ?_⟩
    intro hge2
    obtain ⟨hhead, pp, ks, htail, hptrs, hpen, hnext⟩ := h2 hge2
    exact ⟨hhead, pp, ks, hptrs, hpen, htail, hnext⟩

/-- Witness for C2 at the concrete list `[1, 2]`. -/
theorem C2_pop_back_spec_witness :
    ∃ l', (((new : LinkedList Nat).pushBack 1).pushBack 2).popBack =
      some (some 2, l') ∧ Inv l' ∧ elems l' = some [1] := by
  obtain ⟨_, h2⟩ := C2_pop_back_spec Nat _ Inv_ex2
  obtain ⟨l', hpop, hInv', _, helems, _, _⟩ :=
    h2 [1, 2] elems_ex2 (by decide)
  exact ⟨l', hpop, hInv', helems⟩

/-- C3: for every list and `index ≤ len`, `insert(index, element)` succeeds,
makes `element` the element at position `index`, leaves the elements before
`index` unchanged, shifts every element previously at or after `index` one
position later, increments `len` by one, and makes the new node the `tail`
when `index = len`. -/
theorem C3_insert_spec (α : Type) :
    ∀ (l : LinkedList α) (i : Nat) (x : α), Inv l → i ≤ l.len →
      ∃ l', l.insertAt i x = some l' ∧ Inv l' ∧ l'.len = l.len + 1 ∧
        (∀ es, elems l = some es →
          ∃ es', elems l' = some es' ∧ es'.length = es.length + 1 ∧
            es'.get? i = some x ∧
            (∀ j, j < i → es'.get? j = es.get? j) ∧
            (∀ j, i ≤ j → es'.get? (j + 1) = es.get? j)) ∧
        (i = l.len → l'.tail = some l.fresh) := by
  intro l i x hInv hi
  obtain ⟨l', hins, hInv', hlen, helems, htail⟩ := insertAt_spec hInv hi x
  refine ⟨l', hins, hInv', hlen, ?_, htail⟩
  intro es hes
  have heslen : es.length = l.len := by
    obtain ⟨es2, hes2, hlen2⟩ := hInv.elems_some
    rw [hes2] at hes
    rw [← Option.some_inj.mp hes]
    exact hlen2
  have hi' : i ≤ es.length := by omega
  obtain ⟨hget, hbefore, hafter⟩ := splice_get es i x hi'
  refine ⟨es.take i ++ x :: es.drop i, helems es hes, ?_, hget, hbefore,
    hafter⟩
  rw [List.length_append, List.length_take, List.length_cons,
    List.length_drop]
  omega

/-- Witness for C3: inserting `9` at position `1` of `[1, 2]`. -/
theorem C3_insert_spec_witness :
    ∃ l' es', (((new : LinkedList Nat).pushBack 1).pushBack 2).insertAt
        1 9 = some l' ∧ elems l' = some es' ∧ es'.get? 1 = some 9 ∧
      es'.get? 0 = some 1 ∧ es'.get? 2 = some 2 := by
  obtain ⟨l', hins, _, _, helems, _⟩ :=
    C3_insert_spec Nat _ 1 9 Inv_ex2 (by decide)
  obtain ⟨es', hes', _, hget, hbefore, hafter⟩ := helems [1, 2] elems_ex2
  exact ⟨l', es', hins, hes', hget, hbefore 0 (by decide),
    hafter 1 (by decide)⟩

/-- C4: `insert(k, x)` fails (the panicking execution, modelled by a none
result) exactly when `k > len`: for `k ≤ len` it succeeds. -/
theorem C4_insert_panics_iff (α : Type) :
    ∀ (l : LinkedList α) (k : Nat) (x : α), Inv l →
      (l.insertAt k x = none ↔ l.len < k) := by
  intro l k x hInv
  constructor
  · intro hnone
    by_contra hk
    obtain ⟨l', hins, _⟩ := @insertAt_spec α l hInv k (by omega) x
    rw [hins] at hnone
    exact Option.noConfusion hnone
  · intro hk
    exact insertAt_panic hInv hk x

/-- Witness for C4: inserting at index 3 of the empty list panics, and at
index 0 it does not. -/
theorem C4_insert_panics_iff_witness :
    (new : LinkedList Nat).insertAt 3 0 = none ∧
    ¬((new : LinkedList Nat).insertAt 0 0 = none) := by
  constructor
  · exact (C4_insert_panics_iff Nat new 3 0 Inv_new).mpr (by decide)
  · intro habs
    exact absurd ((C4_insert_panics_iff Nat new 0 0 Inv_new).mp habs)
      (by decide)

/-- C5: `pop_front` on an empty list returns none and leaves the state
unchanged; on a non-empty list it detaches (deallocates) the head node,
advances `head` to that node's `next`, sets `tail` to none when the new
`head` is none, decrements `len`, returns the detached element, and leaves
the remaining elements in order. -/
theorem C5_pop_front_spec (α : Type) :
    ∀ l : LinkedList α, Inv l →
      (l.len = 0 → l.popFront = some (none, l)) ∧
      (∀ es, elems l = some es → es ≠ [] →
        ∃ p nd l', l.head = some p ∧ l.heap.lookup p = some nd ∧
          l.popFront = some (some nd.element, l') ∧
          some nd.element = es.head? ∧
          l' = { heap := l.heap.free p, head := nd.next,
                 tail := if nd.next.isNone then none else l.tail,
                 len := l.len - 1, fresh := l.fresh } ∧
          Inv l' ∧ elems l' = some es.tail) := by
  intro l hInv
  obtain ⟨out, l', hpop, hInv', hlen, hempty, houts⟩ := popFront_spec hInv
  constructor
  · intro h0
    obtain ⟨hout, hl'⟩ := hempty h0
    rw [hout, hl'] at hpop
    exact hpop
  · intro es hes hne
    have hlen0 : l.len ≠ 0 := by
      obtain ⟨es2, hes2, hlen2⟩ := hInv.elems_some
      rw [hes2] at hes
      obtain rfl : es2 = es := Option.some_inj.mp hes
      intro h0
      rw [h0] at hlen2
      exact hne (List.length_eq_zero.mp hlen2)
    obtain ⟨p, hp⟩ : ∃ p, l.head = some p := by
      cases hh : l.head with
      | none => exact absurd ((hInv.len_zero_iff_head).mpr hh) hlen0
      | some p => exact ⟨p, rfl⟩
    obtain ⟨nd, hnd⟩ : ∃ nd, l.heap.lookup p = some nd := by
      obtain ⟨_, cs, hc, _, _⟩ := hInv
      obtain ⟨k, hk⟩ : ∃ k, l.len = k + 1 := ⟨l.len - 1, by omega⟩
      rw [chain, hk] at hc
      obtain ⟨r, nd, _, hpr, hl, _, _⟩ := chainSeg_succ_inv hc
      rw [hp] at hpr
      obtain rfl : p = r := Option.some_inj.mp hpr
      exact ⟨nd, hl⟩
    have hred := popFront_eq_of_head_some hp hnd
    rw [hred] at hpop
    obtain ⟨hout, hl'⟩ : some nd.element = out ∧
        ({ heap := l.heap.free p, head := nd.next,
           tail := if nd.next.isNone then none else l.tail,
           len := l.len - 1, fresh := l.fresh } : LinkedList α) = l' := by
      have h3 := Option.some_inj.mp hpop
      exact ⟨congrArg Prod.fst h3, congrArg Prod.snd h3⟩
    obtain ⟨hhead, htl⟩ := houts es hes
    refine ⟨p, nd, l', hp, hnd, ?_, ?_, hl'.symm, hInv', htl⟩
    · rw [hred, hl']
    · rw [hout, hhead]

/-- Witness for C5 at the concrete list `[1, 2]`. -/
theorem C5_pop_front_spec_witness :
    ∃ l', (((new : LinkedList Nat).pushBack 1).pushBack 2).popFront =
      some (some 1, l') ∧ Inv l' ∧ elems l' = some [2] := by
  obtain ⟨_, h2⟩ := C5_pop_front_spec Nat _ Inv_ex2
  obtain ⟨p, nd, l', _, _, hpop, hhead, _, hInv', htl⟩ :=
    h2 [1, 2] elems_ex2 (by decide)
  refine ⟨l', ?_, hInv', htl⟩
  rw [hpop, show (some nd.element : Option Nat) = some 1 from hhead]

/-- C6: for all `n ≥ 0`, pushing `x1..xn` with `push_back` and then popping
with `pop_front` returns `some x1, ..., some xn` (FIFO); pushing with
`push_front` and then popping with `pop_front` returns
`some xn, ..., some x1` (LIFO); the `(n+1)`-th `pop_front` returns none. -/
theorem C6_fifo_lifo (α : Type) :
    ∀ xs : List α,
      (∃ l', ((new : LinkedList α).pushBackAll xs).popFrontN
        (xs.length + 1) = some (xs.map some ++ [none], l')) ∧
      (∃ l', ((new : LinkedList α).pushFrontAll xs).popFrontN
        (xs.length + 1) = some (xs.reverse.map some ++ [none], l')) := by
  intro xs
  constructor
  · obtain ⟨hInv1, helems1⟩ := @pushBackAll_spec α xs new Inv_new
    have helems : elems ((new : LinkedList α).pushBackAll xs) = some xs := by
      rw [helems1 [] rfl, List.nil_append]
    obtain ⟨l', hpop, _⟩ := popFrontN_spec hInv1 helems
    exact ⟨l', hpop⟩
  · obtain ⟨hInv1, helems1⟩ := @pushFrontAll_spec α xs new Inv_new
    have helems : elems ((new : LinkedList α).pushFrontAll xs) =
        some xs.reverse := by
      rw [helems1 [] rfl, List.append_nil]
    obtain ⟨l', hpop, _⟩ := popFrontN_spec hInv1 helems
    rw [List.length_reverse] at hpop
    exact ⟨l', hpop⟩

/-- C7: for every list state satisfying the invariant and every element,
`insert(0, x)` produces exactly the state `push_front(x)` produces, and
`insert(len, x)` produces exactly the state `push_back(x)` produces (the
whole record: heap, head, tail, len, allocator). -/
theorem C7_insert_endpoints (α : Type) :
    ∀ (l : LinkedList α) (x : α), Inv l →
      l.insertAt 0 x = some (l.pushFront x) ∧
      l.insertAt l.len x = some (l.pushBack x) :=
  fun _ x hInv => ⟨insertAt_zero hInv x, insertAt_len hInv x⟩

/-- Witness for C7 at the concrete list `[1, 2]`. -/
theorem C7_insert_endpoints_witness :
    (((new : LinkedList Nat).pushBack 1).pushBack 2).insertAt 0 5 =
      some ((((new : LinkedList Nat).pushBack 1).pushBack 2).pushFront 5) ∧
    (((new : LinkedList Nat).pushBack 1).pushBack 2).insertAt
        (((new : LinkedList Nat).pushBack 1).pushBack 2).len 5 =
      some ((((new : LinkedList Nat).pushBack 1).pushBack 2).pushBack 5) :=
  C7_insert_endpoints Nat (((new : LinkedList Nat).pushBack 1).pushBack 2)
    5 Inv_ex2

/-- C8: after `clear()` the list is empty regardless of its prior size or
contents: `len()` returns 0 and `front()`/`back()` both return none. -/
theorem C8_clear_empties (α : Type) :
    ∀ l : LinkedList α,
      (l.clear).length = 0 ∧ front (l.clear) = none ∧
        back (l.clear) = none :=
  fun _ => ⟨rfl, rfl, rfl⟩

/-- C9: the destruction loop (`Drop`) is an iterative walk (modelled by the
fuel-indexed loop `dropLoop`, a direct translation of the `while let`): for
every list length `n` it visits exactly the `n` chain addresses, in order
and each exactly once (the visit list has no duplicates), each visited
address was allocated and is deallocated afterwards (no leak, no
double-free), and no other address is touched. -/
theorem C9_drop_exact_once (α : Type) :
    ∀ l : LinkedList α, Inv l →
      ∀ cs, chain l.heap l.len l.head = some cs →
        dropLoop l.heap l.len l.head =
          (cs.map Prod.fst, (cs.map Prod.fst).foldl Heap.free l.heap) ∧
        (cs.map Prod.fst).Nodup ∧
        (cs.map Prod.fst).length = l.len ∧
        (∀ r ∈ cs.map Prod.fst, (∃ nd, l.heap.lookup r = some nd) ∧
          ((cs.map Prod.fst).foldl Heap.free l.heap).lookup r = none) ∧
        (∀ r, r ∉ cs.map Prod.fst →
          ((cs.map Prod.fst).foldl Heap.free l.heap).lookup r =
            l.heap.lookup r) := by
  intro l hInv cs hc
  obtain ⟨hb, cs2, hc2, ht, hnd⟩ := hInv
  rw [hc] at hc2
  obtain rfl : cs = cs2 := Option.some_inj.mp hc2
  refine ⟨dropLoop_spec l.heap hc hnd (Nat.le_refl l.len), hnd, ?_, ?_, ?_⟩
  · rw [List.length_map]
    exact chainSeg_length hc
  · intro r hr
    obtain ⟨e, he, heq⟩ := List.mem_map.mp hr
    constructor
    · refine ⟨e.2, ?_⟩
      rw [← heq]
      exact chainSeg_lookup hc e he
    · rw [lookup_foldl_free, if_pos hr]
  · intro r hr
    rw [lookup_foldl_free, if_neg hr]

/-- Witness for C9 at the concrete list `[1, 2]`: the loop frees addresses
0 and 1, each exactly once. -/
theorem C9_drop_exact_once_witness :
    (dropLoop (((new : LinkedList Nat).pushBack 1).pushBack 2).heap
      (((new : LinkedList Nat).pushBack 1).pushBack 2).len
      (((new : LinkedList Nat).pushBack 1).pushBack 2).head).1 = [0, 1] ∧
    ([0, 1] : List Ptr).Nodup := by
  have h := C9_drop_exact_once Nat _ Inv_ex2
    [(0, ⟨1, some 1⟩), (1, ⟨2, none⟩)] chain_ex2
  exact ⟨by rw [h.1]; rfl, h.2.1⟩

/-- C10: `len`, `front` and `back` are pure observers: run as `&self`
methods they return their observation and leave the state exactly as it
was.  A store through the reference returned by `front_mut`/`back_mut`
changes at most the element value of the referenced endpoint node: the
length, `head`, `tail`, the allocator, every `next` link, and every other
node are unchanged. -/
theorem C10_observers_frame (α : Type) :
    ∀ (l : LinkedList α) (x : α),
      lengthRun l = (l.len, l) ∧
      frontRun l = (front l, l) ∧
      backRun l = (back l, l) ∧
      ((l.frontMutWrite x).len = l.len ∧
        (l.frontMutWrite x).head = l.head ∧
        (l.frontMutWrite x).tail = l.tail ∧
        (l.frontMutWrite x).fresh = l.fresh ∧
        (∀ r, ((l.frontMutWrite x).heap.lookup r).map Node.next =
          (l.heap.lookup r).map Node.next) ∧
        (∀ r, l.head ≠ some r →
          (l.frontMutWrite x).heap.lookup r = l.heap.lookup r) ∧
        (∀ p, l.head = some p →
          (l.frontMutWrite x).heap.lookup p =
            (l.heap.lookup p).map
              (fun nd => { nd with element := x }))) ∧
      ((l.backMutWrite x).len = l.len ∧
        (l.backMutWrite x).head = l.head ∧
        (l.backMutWrite x).tail = l.tail ∧
        (l.backMutWrite x).fresh = l.fresh ∧
        (∀ r, ((l.backMutWrite x).heap.lookup r).map Node.next =
          (l.heap.lookup r).map Node.next) ∧
        (∀ r, l.tail ≠ some r →
          (l.backMutWrite x).heap.lookup r = l.heap.lookup r) ∧
        (∀ p, l.tail = some p →
          (l.backMutWrite x).heap.lookup p =
            (l.heap.lookup p).map
              (fun nd => { nd with element := x }))) := by
  intro l x
  refine ⟨rfl, rfl, rfl, ?_, ?_⟩
  · cases hh : l.head with
    | none =>
      have hred : l.frontMutWrite x = l := by
        simp only [frontMutWrite, hh]
      rw [hred]
      exact ⟨rfl, hh, rfl, rfl, fun r => rfl, fun r _ => rfl,
        fun p hp => Option.noConfusion hp⟩
    | some q =>
      refine ⟨?_, ?_, ?_, ?_, ?_, ?_, ?_⟩ <;>
        simp only [frontMutWrite, hh]
      · intro r
        show ((l.heap.setElement q x).lookup r).map Node.next = _
        rw [Heap.lookup_setElement]
        cases l.heap.lookup r with
        | none => rfl
        | some nd =>
          rw [Option.map_some', Option.map_some', Option.map_some']
          by_cases hrq : r = q
          · rw [if_pos hrq]
          · rw [if_neg hrq]
      · intro r hr
        show (l.heap.setElement q x).lookup r = _
        rw [Heap.lookup_setElement]
        cases l.heap.lookup r with
        | none => rfl
        | some nd =>
          rw [Option.map_some',
            if_neg (fun hrq => hr (by rw [hrq]))]
      · intro p hp
        obtain rfl : q = p := Option.some_inj.mp hp
        show (l.heap.setElement q x).lookup q = _
        rw [Heap.lookup_setElement]
        cases l.heap.lookup q with
        | none => rfl
        | some nd =>
          rw [Option.map_some', Option.map_some', if_pos rfl]
  · cases hh : l.tail with
    | none =>
      have hred : l.backMutWrite x = l := by
        simp only [backMutWrite, hh]
      rw [hred]
      exact ⟨rfl, rfl, hh, rfl, fun r => rfl, fun r _ => rfl,
        fun p hp => Option.noConfusion hp⟩
    | some q =>
      refine ⟨?_, ?_, ?_, ?_, ?_, ?_, ?_⟩ <;>
        simp only [backMutWrite, hh]
      · intro r
        show ((l.heap.setElement q x).lookup r).map Node.next = _
        rw [Heap.lookup_setElement]
        cases l.heap.lookup r with
        | none => rfl
        | some nd =>
          rw [Option.map_some', Option.map_some', Option.map_some']
          by_cases hrq : r = q
          · rw [if_pos hrq]
          · rw [if_neg hrq]
      · intro r hr
        show (l.heap.setElement q x).lookup r = _
        rw [Heap.lookup_setElement]
        cases l.heap.lookup r with
        | none => rfl
        | some nd =>
          rw [Option.map_some',
            if_neg (fun hrq => hr (by rw [hrq]))]
      · intro p hp
        obtain rfl : q = p := Option.some_inj.mp hp
        show (l.heap.setElement q x).lookup q = _
        rw [Heap.lookup_setElement]
        cases l.heap.lookup q with
        | none => rfl
        | some nd =>
          rw [Option.map_some', Option.map_some', if_pos rfl]

end LinkedListRs
